import Mathlib

/-!
Verification development for the XiaoyaWebDavProxy virtual-filesystem core.

The repository contains several near-duplicate Go implementations of an
in-memory WebDAV filesystem.  We shallowly embed the two variants the
specification's claims refer to:

* namespace `P3`: the `VirtualFileSystem` variant (src/unnamed/part_003) —
  bulk load with ancestor-directory synthesis, Rename/RemoveAll cascades,
  property patching, and a closable `VirtualFileHandle`;
* namespace `MainGo`: the first `TextWebDAVFileSystem` variant of
  src/main.go — read-only capability surface and prefix-based `Stat`.

Modelling conventions:
* Go strings are modelled as `List Char` (`GoStr`); `str` converts a Lean
  string literal.  `strings.TrimSpace` is modelled on the ASCII whitespace
  the inputs use.
* Go `map[string]*X` is modelled as an association list with map-style
  update (`putFile`); iteration-order-independent observations only.
* Go `int64` is modelled as `Int`; the arithmetic spots where the source
  can overflow (`Seek`'s additions, `Write`'s size computation) apply
  `wrap64`, the two's-complement wrap-around at 64 bits.
* `time.Now()` is modelled by threading an abstract tick `now : Nat`.
-/

/-- Go strings, modelled as lists of characters. -/
abbrev GoStr := List Char

/-- Conversion from a Lean string literal to the `GoStr` model. -/
def str (s : String) : GoStr := s.data

/-- Model of the whitespace class `unicode.IsSpace` tests, restricted to the
ASCII whitespace that occurs in the program's inputs. -/
def isSpaceChar (c : Char) : Bool :=
  c = ' ' || c = '\t' || c = '\n' || c = '\r'

/-- Model of Go `strings.TrimSpace`. -/
def trimSpace (s : GoStr) : GoStr :=
  ((s.dropWhile isSpaceChar).reverse.dropWhile isSpaceChar).reverse

/-- Model of Go `strings.Split` for a one-character separator. -/
def splitChar (c : Char) : GoStr → List GoStr
  | [] => [[]]
  | x :: xs =>
    if x = c then [] :: splitChar c xs
    else
      match splitChar c xs with
      | [] => [[x]]
      | h :: t => (x :: h) :: t

/-- Model of Go `strings.Join` for a one-character separator. -/
def joinChar (c : Char) : List GoStr → GoStr
  | [] => []
  | [x] => x
  | x :: xs => x ++ c :: joinChar c xs

/-- Model of Go `strings.TrimPrefix`. -/
def strTrimPre (s p : GoStr) : GoStr :=
  if p.isPrefixOf s then s.drop p.length else s

/-- Model of Go `strings.TrimSuffix`. -/
def strTrimSuf (s p : GoStr) : GoStr :=
  if p.isSuffixOf s then s.take (s.length - p.length) else s

/-- Effect of a `..` component on the output stack of `Clean`: it cancels
the preceding real component, vanishes at the root of a rooted path, and
accumulates otherwise. -/
def cleanStepDD (rooted : Bool) (acc : List GoStr) : List GoStr :=
  match acc with
  | [] => if rooted then [] else [['.', '.']]
  | a :: rest => if a = ['.', '.'] then ['.', '.'] :: a :: rest else rest

/-- The component-processing core of Go `path/filepath.Clean` (Unix rules):
drop empty and `.` components, let `..` cancel the preceding component
(vanishing at the root of a rooted path). `acc` is the output stack,
most recent component first. -/
def cleanRun (rooted : Bool) (acc : List GoStr) : List GoStr → List GoStr
  | [] => acc.reverse
  | c :: cs =>
    if c = [] || c = ['.'] then cleanRun rooted acc cs
    else if c = ['.', '.'] then cleanRun rooted (cleanStepDD rooted acc) cs
    else cleanRun rooted (c :: acc) cs

/-- Model of Go `path/filepath.Clean` (Unix): split on `/`, process the
components, and reassemble (rooted paths keep their leading `/`; an empty
result is `.` resp. `/`). -/
def goClean (p : GoStr) : GoStr :=
  if p = [] then ['.']
  else if p.head? = some '/' then
    '/' :: joinChar '/' (cleanRun true [] (splitChar '/' p))
  else if cleanRun false [] (splitChar '/' p) = [] then ['.']
  else joinChar '/' (cleanRun false [] (splitChar '/' p))

/-- The prefix of `p` up to and including its last `'/'` (empty when `p`
contains no `'/'`); this is the slice Go's `filepath.Dir` hands to `Clean`. -/
def upToLastSlash : GoStr → GoStr
  | [] => []
  | x :: xs =>
    match upToLastSlash xs with
    | [] => if x = '/' then ['/'] else []
    | h :: t => x :: h :: t

/-- Model of Go `path/filepath.Dir` (Unix). -/
def goDir (p : GoStr) : GoStr :=
  goClean (upToLastSlash p)

/-- The component of `l` after its last `'/'`. -/
def afterLastSlash (l : GoStr) : GoStr :=
  (l.reverse.takeWhile (fun c => ¬ c = '/')).reverse

/-- Model of Go `path/filepath.Base` (Unix). -/
def goBase (p : GoStr) : GoStr :=
  if p = [] then ['.']
  else
    let q := (p.reverse.dropWhile (fun c => c = '/')).reverse
    if q = [] then ['/']
    else afterLastSlash q

/-- Model of Go `path/filepath.Join` on two elements. -/
def goJoin2 (a b : GoStr) : GoStr :=
  if a = [] && b = [] then []
  else if a = [] then goClean b
  else goClean (a ++ '/' :: b)

/-- Decimal digit test, as in Go's integer scanner. -/
def isDigitChar (c : Char) : Bool := '0' ≤ c && c ≤ '9'

/-- Value of a digit string. -/
def digitsToNat (l : GoStr) : Nat :=
  l.foldl (fun a c => a * 10 + (c.toNat - 48)) 0

/-- Model of Go `strconv.ParseInt(s, 10, 64)`: optional sign, at least one
decimal digit, and the value must fit in `int64`. -/
def parseInt64 (s : GoStr) : Option Int :=
  match s with
  | [] => none
  | c :: rest =>
    let neg := c = '-'
    let ds := if c = '-' || c = '+' then rest else s
    if ds = [] then none
    else if ds.all isDigitChar then
      let v : Int := if neg then -(digitsToNat ds : Int) else (digitsToNat ds : Int)
      if -(2 ^ 63 : Int) ≤ v && v ≤ 2 ^ 63 - 1 then some v else none
    else none

/-- Two's-complement wrap-around of Go `int64` arithmetic. -/
def wrap64 (z : Int) : Int :=
  (z + 2 ^ 63) % 2 ^ 64 - 2 ^ 63

/-- The error values the sources return (`os.Err*`, `io.EOF`, and the
`errors.New` / `fmt.Errorf` messages of `Seek` and `LoadFromText`). -/
inductive GoError where
  | notExist
  | exist
  | permission
  | closed
  | invalid
  | eof
  | invalidWhence
  | negativePosition
  | lineFormat (line : GoStr)
  | sizeFormat (line : GoStr)
deriving DecidableEq, Repr

namespace P3

/-! Embedding of the `VirtualFileSystem` variant (src/unnamed/part_003). -/

/-- Model of `encoding/xml.Name`. -/
structure XmlName where
  space : String
  localName : String
deriving DecidableEq, Repr

/-- Model of `webdav.Property`. -/
structure Property where
  xmlName : XmlName
  innerXML : GoStr
deriving DecidableEq, Repr

/-- Model of `webdav.Proppatch` (the source's `Patch` ignores `Remove`). -/
structure Proppatch where
  remove : Bool
  props : List Property
deriving DecidableEq, Repr

/-- Model of `webdav.Propstat` (only the fields the source populates). -/
structure Propstat where
  status : Nat
  props : List Property
deriving DecidableEq, Repr

/-- Model of the `VirtualFile` struct of part_003. -/
structure VirtualFile where
  name : GoStr
  displayName : GoStr
  size : Int
  modTime : Nat
  isDir : Bool
  content : List Nat
  properties : List (XmlName × Property)
deriving DecidableEq, Repr

/-- Model of the `VirtualFileSystem` struct: the path → entry map. -/
structure VirtualFileSystem where
  files : List (GoStr × VirtualFile)
deriving DecidableEq, Repr

/-- Map lookup `vfs.files[k]` (first matching key). -/
def findFile (m : List (GoStr × VirtualFile)) (k : GoStr) : Option VirtualFile :=
  match m with
  | [] => none
  | kv :: rest => if kv.1 = k then some kv.2 else findFile rest k

/-- Map assignment `vfs.files[k] = v`: replace the entry for `k`, or append. -/
def putFile (m : List (GoStr × VirtualFile)) (k : GoStr) (v : VirtualFile) :
    List (GoStr × VirtualFile) :=
  match m with
  | [] => [(k, v)]
  | kv :: rest => if kv.1 = k then (k, v) :: rest else kv :: putFile rest k v

/-- Property-map assignment `vf.properties[k] = v`. -/
def putProp (m : List (XmlName × Property)) (k : XmlName) (v : Property) :
    List (XmlName × Property) :=
  match m with
  | [] => [(k, v)]
  | kv :: rest => if kv.1 = k then (k, v) :: rest else kv :: putProp rest k v

/-- Property-map lookup. -/
def findProp (m : List (XmlName × Property)) (k : XmlName) : Option Property :=
  match m with
  | [] => none
  | kv :: rest => if kv.1 = k then some kv.2 else findProp rest k

/-- The `xml.Name{Space: "DAV:", Local: "displayname"}` key. -/
def davDisplayname : XmlName := { space := "DAV:", localName := "displayname" }

/-- The displayname property the loader attaches to each created entry. -/
def displaynameProp (v : GoStr) : Property :=
  { xmlName := davDisplayname, innerXML := v }

/-- The directory entry `LoadFromText` synthesizes for a missing ancestor
`dirPath`, including its pre-seeded `displayname` property. -/
def mkDirEntry (now : Nat) (dirPath : GoStr) : VirtualFile :=
  { name := goBase dirPath
    displayName := goBase dirPath
    size := 0
    modTime := now
    isDir := true
    content := []
    properties := [(davDisplayname, displaynameProp (goBase dirPath))] }

/-- One iteration of the parent-chain loop of `LoadFromText`: extend
`current` by the next path segment and create the directory if missing. -/
def chainStep (now : Nat) (st : List (GoStr × VirtualFile) × GoStr) (part : GoStr) :
    List (GoStr × VirtualFile) × GoStr :=
  let current := goJoin2 st.2 part
  let dirPath := '/' :: current
  if (findFile st.1 dirPath).isSome then (st.1, current)
  else (putFile st.1 dirPath (mkDirEntry now dirPath), current)

/-- The "确保所有父目录都存在" block of `LoadFromText`: walk the parent chain
of `path` from shallowest to deepest, synthesizing missing directories. -/
def ensureParents (now : Nat) (files : List (GoStr × VirtualFile)) (path : GoStr) :
    List (GoStr × VirtualFile) :=
  let dir := goDir path
  if dir = str "." || dir = str "/" then files
  else ((splitChar '/' (strTrimPre dir (str "/"))).foldl (chainStep now) (files, [])).1

/-- The leaf entry `LoadFromText` inserts for a declared file. -/
def mkLeafEntry (now : Nat) (path : GoStr) (size : Int) (displayName : GoStr) :
    VirtualFile :=
  { name := goBase path
    displayName := displayName
    size := size
    modTime := now
    isDir := false
    content := []
    properties := [(davDisplayname, displaynameProp displayName)] }

/-- Processing of one line of the bulk-load input (the loop body of
`LoadFromText` in part_003): skip blank/comment lines, require at least two
`#`-separated fields, parse the size, synthesize ancestors, insert the leaf
with the optional display name defaulting to the final path segment. -/
def processLine (fs : VirtualFileSystem) (now : Nat) (rawLine : GoStr) :
    Except GoError VirtualFileSystem :=
  let line := trimSpace rawLine
  if line = [] || line.head? = some '#' then .ok fs
  else
    match splitChar '#' line with
    | p0 :: p1 :: rest =>
      let path := trimSpace p0
      let sizeStr := trimSpace p1
      let displayName0 :=
        match rest with
        | d :: _ => trimSpace d
        | [] => []
      match parseInt64 sizeStr with
      | none => .error (.sizeFormat line)
      | some size =>
        let files := ensureParents now fs.files path
        let displayName := if displayName0 = [] then goBase path else displayName0
        .ok { files := putFile files path (mkLeafEntry now path size displayName) }
    | _ => .error (.lineFormat line)

/-- The root entry `LoadFromText` synthesizes when `/` was never declared. -/
def rootEntry (now : Nat) : VirtualFile :=
  { name := []
    displayName := str "Root"
    size := 0
    modTime := now
    isDir := true
    content := []
    properties := [(davDisplayname, displaynameProp (str "Root"))] }

/-- `NewVirtualFileSystem`. -/
def NewVirtualFileSystem : VirtualFileSystem := { files := [] }

/-- Model of `VirtualFileSystem.LoadFromText` (part_003): split the text
into lines, process each, then ensure the root directory exists. -/
def LoadFromText (fs : VirtualFileSystem) (now : Nat) (text : GoStr) :
    Except GoError VirtualFileSystem :=
  match (splitChar '\n' text).foldlM (fun acc l => processLine acc now l) fs with
  | .error e => .error e
  | .ok fs' =>
    .ok (if (findFile fs'.files (str "/")).isSome then fs'
         else { files := putFile fs'.files (str "/") (rootEntry now) })

/-- Model of `VirtualFileSystem.Stat` (part_003): exact-key lookup only. -/
def Stat (fs : VirtualFileSystem) (name : GoStr) : Except GoError VirtualFile :=
  match findFile fs.files name with
  | some f => .ok f
  | none => .error .notExist

/-- Model of `VirtualFileSystem.RemoveAll` (part_003): collect the entry at
`name` and every entry whose path has prefix `name + "/"`; error if none,
otherwise delete them all. -/
def RemoveAll (fs : VirtualFileSystem) (name : GoStr) :
    Except GoError Unit × VirtualFileSystem :=
  let toDelete := fs.files.filter
    (fun kv => kv.1 = name || (name ++ str "/").isPrefixOf kv.1)
  if toDelete.length = 0 then (.error .notExist, fs)
  else
    (.ok (),
     { files := fs.files.filter
         (fun kv => ¬ (kv.1 = name || (name ++ str "/").isPrefixOf kv.1)) })

/-- Model of `VirtualFileSystem.Rename` (part_003): error if `oldName` is
absent; for a directory, rebuild every matching key with the `oldName`
prefix replaced by `newName`, delete the old keys and insert the new map;
for a file, a single delete-and-insert. -/
def Rename (fs : VirtualFileSystem) (oldName newName : GoStr) :
    Except GoError Unit × VirtualFileSystem :=
  match findFile fs.files oldName with
  | none => (.error .notExist, fs)
  | some oldFile =>
    if oldFile.isDir then
      let children := (fs.files.filter
          (fun kv => kv.1 = oldName || (oldName ++ str "/").isPrefixOf kv.1)).map
        (fun kv => (newName ++ strTrimPre kv.1 oldName, kv.2))
      let pruned := fs.files.filter
        (fun kv => ¬ (kv.1 = oldName || (oldName ++ str "/").isPrefixOf kv.1))
      (.ok (), { files := children.foldl (fun m kv => putFile m kv.1 kv.2) pruned })
    else
      (.ok (), { files := putFile (fs.files.filter (fun kv => ¬ kv.1 = oldName))
                   newName oldFile })

/-- Model of `VirtualFile.DeadProps` (part_003): returns the property map. -/
def DeadProps (vf : VirtualFile) : List (XmlName × Property) :=
  vf.properties

/-- Model of `VirtualFile.Patch` (part_003): store each patched property;
a patch whose local name is `displayname` also updates the `displayName`
field.  Returns the single 200 Propstat the source builds. -/
def Patch (vf : VirtualFile) (patches : List Proppatch) :
    List Propstat × VirtualFile :=
  let vf' := patches.foldl
    (fun v patch =>
      patch.props.foldl
        (fun v prop =>
          let v := { v with properties := putProp v.properties prop.xmlName prop }
          if prop.xmlName.localName = "displayname" then
            { v with displayName := prop.innerXML }
          else v)
        v)
    vf
  ([{ status := 200, props := [] }], vf')

/-- Model of the `VirtualFileHandle` struct of part_003. -/
structure VirtualFileHandle where
  file : VirtualFile
  offset : Int
  closed : Bool
deriving DecidableEq, Repr

/-- Model of `VirtualFileHandle.Close`. -/
def VirtualFileHandle.Close (h : VirtualFileHandle) :
    Except GoError Unit × VirtualFileHandle :=
  if h.closed then (.error .closed, h)
  else (.ok (), { h with closed := true })

/-- Model of `VirtualFileHandle.Read`: the result mirrors Go's `(n, err)`
pair; the source copies `min(len(p), size-offset)` synthesized zero bytes. -/
def VirtualFileHandle.Read (h : VirtualFileHandle) (plen : Nat) :
    (Nat × Option GoError) × VirtualFileHandle :=
  if h.closed then ((0, some .closed), h)
  else if h.file.isDir then ((0, some .invalid), h)
  else if h.file.size ≤ h.offset then ((0, some .eof), h)
  else
    let n := min plen (h.file.size - h.offset).toNat
    ((n, none), { h with offset := h.offset + n })

/-- Model of `VirtualFileHandle.Seek`: the source assigns the new offset
first and only then rejects a negative result; additions wrap at 64 bits. -/
def VirtualFileHandle.Seek (h : VirtualFileHandle) (offset : Int) (whence : Int) :
    Except GoError Int × VirtualFileHandle :=
  if h.closed then (.error .closed, h)
  else
    let h? : Option VirtualFileHandle :=
      if whence = 0 then some { h with offset := offset }
      else if whence = 1 then some { h with offset := wrap64 (h.offset + offset) }
      else if whence = 2 then some { h with offset := wrap64 (h.file.size + offset) }
      else none
    match h? with
    | none => (.error .invalidWhence, h)
    | some h' =>
      if h'.offset < 0 then (.error .negativePosition, h')
      else (.ok h'.offset, h')

/-- Model of `VirtualFileHandle.Readdir`; the source reads the package-level
`vfs` map, passed here as `store`. -/
def VirtualFileHandle.Readdir (h : VirtualFileHandle) (store : VirtualFileSystem)
    (count : Int) : Except GoError (List VirtualFile) × VirtualFileHandle :=
  if h.closed then (.error .closed, h)
  else if ¬ h.file.isDir then (.error .invalid, h)
  else
    let infos := store.files.filterMap
      (fun kv =>
        let dir := goDir kv.1
        if dir = strTrimSuf h.file.name (str "/") ||
            (dir = str "." && h.file.name = []) ||
            (dir = str "/" && h.file.name = []) then
          some kv.2
        else none)
    let infos := if count > 0 && (infos.length : Int) > count
      then infos.take count.toNat else infos
    (.ok infos, h)

/-- Model of `VirtualFileHandle.Stat`. -/
def VirtualFileHandle.StatH (h : VirtualFileHandle) :
    Except GoError VirtualFile × VirtualFileHandle :=
  if h.closed then (.error .closed, h)
  else (.ok h.file, h)

/-- Model of `VirtualFileHandle.Write`: no content is stored; the entry's
size becomes `offset + len(p)` (wrapping at 64 bits) and its modification
time is refreshed. -/
def VirtualFileHandle.Write (h : VirtualFileHandle) (now : Nat) (p : List Nat) :
    (Nat × Option GoError) × VirtualFileHandle :=
  if h.closed then ((0, some .closed), h)
  else if h.file.isDir then ((0, some .invalid), h)
  else
    ((p.length, none),
     { h with file := { h.file with size := wrap64 (h.offset + p.length)
                                    modTime := now } })

end P3

namespace MainGo

/-! Embedding of the first `TextWebDAVFileSystem` variant of src/main.go. -/

/-- Model of the `FileMeta` struct (first variant: no IsDir/ModTime). -/
structure FileMeta where
  path : GoStr
  size : Int
  displayName : GoStr
  content : List Nat
deriving DecidableEq, Repr

/-- Model of the `TextWebDAVFileSystem` struct (the `Files` map; the mutex,
auth table and port play no role in the claims). -/
structure TextWebDAVFileSystem where
  files : List (GoStr × FileMeta)
deriving DecidableEq, Repr

/-- Model of the `VirtualFileInfo` struct. -/
structure VirtualFileInfo where
  name : GoStr
  size : Int
  path : GoStr
  isDir : Bool
  modTime : Nat
deriving DecidableEq, Repr

/-- Model of the `VirtualFile` handle struct (the `fs` back-pointer is not
embedded; operations that consult the store take it as an argument). -/
structure VirtualFile where
  meta : FileMeta
  pos : Int
  flags : Int
deriving DecidableEq, Repr

/-- Map lookup `fs.Files[name]`. -/
def findMeta (m : List (GoStr × FileMeta)) (k : GoStr) : Option FileMeta :=
  match m with
  | [] => none
  | kv :: rest => if kv.1 = k then some kv.2 else findMeta rest k

/-- Model of `TextWebDAVFileSystem.Stat` (src/main.go first variant): an
exact entry yields a file info; otherwise any entry whose path starts with
`name + "/"` makes `name` answer as a synthesized directory; otherwise
`os.ErrNotExist`. -/
def Stat (fs : TextWebDAVFileSystem) (now : Nat) (name : GoStr) :
    Except GoError VirtualFileInfo :=
  match findMeta fs.files name with
  | some meta =>
    .ok { name := meta.displayName, size := meta.size, path := meta.path,
          isDir := false, modTime := now }
  | none =>
    if fs.files.any (fun kv => (name ++ str "/").isPrefixOf kv.1) then
      .ok { name := goBase name, size := 0, path := name,
            isDir := true, modTime := now }
    else .error .notExist

/-- Model of `TextWebDAVFileSystem.Mkdir` (read-only deployment). -/
def Mkdir (fs : TextWebDAVFileSystem) (name : GoStr) :
    Except GoError Unit × TextWebDAVFileSystem :=
  (.error .permission, fs)

/-- Model of `TextWebDAVFileSystem.RemoveAll` (read-only deployment). -/
def RemoveAll (fs : TextWebDAVFileSystem) (name : GoStr) :
    Except GoError Unit × TextWebDAVFileSystem :=
  (.error .permission, fs)

/-- Model of `TextWebDAVFileSystem.Rename` (read-only deployment). -/
def Rename (fs : TextWebDAVFileSystem) (oldName newName : GoStr) :
    Except GoError Unit × TextWebDAVFileSystem :=
  (.error .permission, fs)

/-- Model of `VirtualFile.Write` (read-only deployment): `(0, ErrPermission)`
without touching the handle or its entry. -/
def Write (f : VirtualFile) (p : List Nat) :
    (Nat × Option GoError) × VirtualFile :=
  ((0, some .permission), f)

end MainGo

/-! ### Basic lemmas about the embedded primitives -/

theorem wrap64_id {z : Int} (h1 : -(2 ^ 63 : Int) ≤ z) (h2 : z < 2 ^ 63) :
    wrap64 z = z := by
  unfold wrap64
  rw [Int.emod_eq_of_lt (by omega) (by omega)]
  omega

theorem P3.findProp_putProp_self (m : List (P3.XmlName × P3.Property))
    (k : P3.XmlName) (v : P3.Property) :
    P3.findProp (P3.putProp m k v) k = some v := by
  induction m with
  | nil => simp [P3.putProp, P3.findProp]
  | cons kv rest ih =>
    by_cases h : kv.1 = k
    · simp [P3.putProp, P3.findProp, h]
    · simp [P3.putProp, P3.findProp, h, ih]

/-! ### Claim theorems -/

/-- Sample read-only store for the C2 witness: a single declared leaf
`/d/f.txt`, so `/d` only exists by descendant prefix. -/
def c2fs : MainGo.TextWebDAVFileSystem :=
  { files := [ (str "/d/f.txt",
      { path := str "/d/f.txt", size := 1, displayName := str "f", content := [] }) ] }

/-- C2: for a path with no exact entry, `Stat` answers as a synthesized
directory (size 0, isDirectory true) exactly when some entry's path starts
with `name + "/"`, and fails with NotFound otherwise
(src/main.go, first variant, `TextWebDAVFileSystem.Stat`). -/
theorem C2_stat_missing_path (fs : MainGo.TextWebDAVFileSystem) (now : Nat)
    (name : GoStr) (hmiss : MainGo.findMeta fs.files name = none) :
    (fs.files.any (fun kv => (name ++ str "/").isPrefixOf kv.1) = true →
      MainGo.Stat fs now name =
        .ok { name := goBase name, size := 0, path := name,
              isDir := true, modTime := now }) ∧
    (fs.files.any (fun kv => (name ++ str "/").isPrefixOf kv.1) = false →
      MainGo.Stat fs now name = .error .notExist) := by
  unfold MainGo.Stat
  rw [hmiss]
  constructor <;> intro h <;> simp [h]

/-- Witness for C2 at the sample store: `/d` answers as a directory,
`/zz` is NotFound. -/
theorem C2_witness :
    MainGo.Stat c2fs 0 (str "/d") =
      .ok { name := goBase (str "/d"), size := 0, path := str "/d",
            isDir := true, modTime := 0 } ∧
    MainGo.Stat c2fs 0 (str "/zz") = .error .notExist :=
  ⟨(C2_stat_missing_path c2fs 0 (str "/d") (by decide)).1 (by decide),
   (C2_stat_missing_path c2fs 0 (str "/zz") (by decide)).2 (by decide)⟩

/-- C5: in the read-only deployment every mutating verb — `Mkdir`,
`RemoveAll`, `Rename`, and `Write` through a handle — returns
`os.ErrPermission` and leaves the store (and the handle's entry) exactly
as it was, for every pre-state and every input (src/main.go, first
variant). -/
theorem C5_readonly_no_mutation (fs : MainGo.TextWebDAVFileSystem)
    (name oldName newName : GoStr) (f : MainGo.VirtualFile) (p : List Nat) :
    MainGo.Mkdir fs name = (.error .permission, fs) ∧
    MainGo.RemoveAll fs name = (.error .permission, fs) ∧
    MainGo.Rename fs oldName newName = (.error .permission, fs) ∧
    MainGo.Write f p = ((0, some .permission), f) :=
  ⟨rfl, rfl, rfl, rfl⟩

/-- A PROPPATCH request setting `displayname` to `x`. -/
def dnPatch (x : GoStr) : P3.Proppatch :=
  { remove := false
    props := [{ xmlName := P3.davDisplayname, innerXML := x }] }

/-- C9: patching the `displayname` property updates both the stored
property and the entry's `displayName` field, so reading the properties
back yields exactly the patched value (part_003, `VirtualFile.Patch` and
`VirtualFile.DeadProps`). -/
theorem C9_displayname_roundtrip (vf : P3.VirtualFile) (x : GoStr) :
    P3.findProp (P3.DeadProps (P3.Patch vf [dnPatch x]).2) P3.davDisplayname =
      some { xmlName := P3.davDisplayname, innerXML := x } ∧
    (P3.Patch vf [dnPatch x]).2.displayName = x := by
  constructor
  · simp [P3.Patch, P3.DeadProps, P3.davDisplayname, dnPatch,
      P3.findProp_putProp_self]
  · simp [P3.Patch, P3.davDisplayname, dnPatch]

/-- Sample open file handle (declared size 5) for the C6 witness. -/
def h6 : P3.VirtualFileHandle :=
  { file := { name := str "f.mkv", displayName := str "f.mkv", size := 5,
              modTime := 0, isDir := false, content := [], properties := [] }
    offset := 0
    closed := false }

/-- C6: `Seek` supports the three reference points; a negative computed
offset or an unrecognized whence fails with the corresponding invalid
argument error; any non-negative offset is accepted with no upper bound,
and a subsequent `Read` at an offset at or past the end of the content
reports EOF with zero bytes (part_003, `VirtualFileHandle.Seek/Read`). -/
theorem C6_seek_read_boundary (h : P3.VirtualFileHandle) (off : Int)
    (hopen : h.closed = false) (hfile : h.file.isDir = false) :
    (P3.VirtualFileHandle.Seek h off 0).1 =
      (if off < 0 then .error .negativePosition else .ok off) ∧
    (-(2 ^ 63 : Int) ≤ h.offset + off → h.offset + off < 2 ^ 63 →
      (P3.VirtualFileHandle.Seek h off 1).1 =
        (if h.offset + off < 0 then .error .negativePosition
         else .ok (h.offset + off))) ∧
    (-(2 ^ 63 : Int) ≤ h.file.size + off → h.file.size + off < 2 ^ 63 →
      (P3.VirtualFileHandle.Seek h off 2).1 =
        (if h.file.size + off < 0 then .error .negativePosition
         else .ok (h.file.size + off))) ∧
    (∀ w : Int, w ≠ 0 → w ≠ 1 → w ≠ 2 →
      P3.VirtualFileHandle.Seek h off w = (.error .invalidWhence, h)) ∧
    (∀ pos plen, 0 ≤ pos → h.file.size ≤ pos →
      (P3.VirtualFileHandle.Read (P3.VirtualFileHandle.Seek h pos 0).2
          plen).1 = (0, some .eof)) := by
  refine ⟨?_, ?_, ?_, ?_, ?_⟩
  · by_cases hc : off < 0 <;> simp [P3.VirtualFileHandle.Seek, hopen, hc]
  · intro h1 h2
    by_cases hc : h.offset + off < 0 <;>
      simp [P3.VirtualFileHandle.Seek, hopen, wrap64_id h1 h2, hc]
  · intro h1 h2
    by_cases hc : h.file.size + off < 0 <;>
      simp [P3.VirtualFileHandle.Seek, hopen, wrap64_id h1 h2, hc]
  · intro w hw0 hw1 hw2
    simp [P3.VirtualFileHandle.Seek, hopen, hw0, hw1, hw2]
  · intro pos plen hpos hsize
    have hseek : (P3.VirtualFileHandle.Seek h pos 0).2 = { h with offset := pos } := by
      by_cases hc : pos < 0 <;> simp [P3.VirtualFileHandle.Seek, hopen, hc]
    rw [hseek]
    simp [P3.VirtualFileHandle.Read, hopen, hfile, hsize]

/-- Witness for C6 at the sample handle: seeking to `-1` from start is
rejected, whence `3` is rejected, and reading after seeking to the size
or 100 past it reports EOF with zero bytes. -/
theorem C6_witness :
    (P3.VirtualFileHandle.Seek h6 (-1) 0).1 = .error .negativePosition ∧
    (P3.VirtualFileHandle.Seek h6 7 3).1 = .error .invalidWhence ∧
    (P3.VirtualFileHandle.Read (P3.VirtualFileHandle.Seek h6 5 0).2 10).1 =
      (0, some .eof) ∧
    (P3.VirtualFileHandle.Read (P3.VirtualFileHandle.Seek h6 105 0).2 10).1 =
      (0, some .eof) := by
  refine ⟨?_, ?_, ?_, ?_⟩
  · have hthm := (C6_seek_read_boundary h6 (-1) rfl rfl).1
    simpa using hthm
  · have hthm := (C6_seek_read_boundary h6 7 rfl rfl).2.2.2.1 3
      (by decide) (by decide) (by decide)
    simp [hthm]
  · exact (C6_seek_read_boundary h6 0 rfl rfl).2.2.2.2 5 10 (by decide) (by decide)
  · exact (C6_seek_read_boundary h6 0 rfl rfl).2.2.2.2 105 10 (by decide) (by decide)

/-- C10: a `Write` of `p` on an open handle bound to a non-directory entry
succeeds returning `len(p)`, refreshes the entry's modification time and
sets its size to exactly `offset + len(p)` (shrinking included), while the
entry's content and the handle's offset are untouched (part_003,
`VirtualFileHandle.Write`). -/
theorem C10_write_sets_size (h : P3.VirtualFileHandle) (now : Nat) (p : List Nat)
    (hopen : h.closed = false) (hfile : h.file.isDir = false)
    (hlo : -(2 ^ 63 : Int) ≤ h.offset + p.length)
    (hhi : h.offset + (p.length : Int) < 2 ^ 63) :
    (P3.VirtualFileHandle.Write h now p).1 = (p.length, none) ∧
    (P3.VirtualFileHandle.Write h now p).2.file.size = h.offset + p.length ∧
    (P3.VirtualFileHandle.Write h now p).2.file.modTime = now ∧
    (P3.VirtualFileHandle.Write h now p).2.file.content = h.file.content ∧
    (P3.VirtualFileHandle.Write h now p).2.offset = h.offset ∧
    (P3.VirtualFileHandle.Write h now p).2.closed = false := by
  refine ⟨?_, ?_, ?_, ?_, ?_, ?_⟩ <;>
    simp [P3.VirtualFileHandle.Write, hopen, hfile, wrap64_id hlo hhi]

/-- Sample open file handle with declared size 100 at offset 2 for the
C10 witness. -/
def h10 : P3.VirtualFileHandle :=
  { file := { name := str "g.mkv", displayName := str "g.mkv", size := 100,
              modTime := 0, isDir := false, content := [], properties := [] }
    offset := 2
    closed := false }

/-- Witness for C10: writing 3 bytes at offset 2 into a size-100 entry
shrinks the size to exactly 5 and leaves the content alone. -/
theorem C10_witness :
    (P3.VirtualFileHandle.Write h10 7 [9, 9, 9]).1 = (3, none) ∧
    (P3.VirtualFileHandle.Write h10 7 [9, 9, 9]).2.file.size = 5 ∧
    (P3.VirtualFileHandle.Write h10 7 [9, 9, 9]).2.file.modTime = 7 ∧
    (P3.VirtualFileHandle.Write h10 7 [9, 9, 9]).2.file.content = [] := by
  have hthm := C10_write_sets_size h10 7 [9, 9, 9] rfl rfl
    (by decide) (by decide)
  refine ⟨hthm.1, ?_, hthm.2.2.1, hthm.2.2.2.1⟩
  have hs := hthm.2.1
  simpa using hs

/-! ### Lemmas about `splitChar` and the store primitives -/

theorem splitChar_ne_nil (c : Char) (l : GoStr) : splitChar c l ≠ [] := by
  induction l with
  | nil => simp [splitChar]
  | cons x xs ih =>
    simp only [splitChar]
    by_cases hx : x = c
    · simp [hx]
    · simp only [hx, if_false]
      cases hsp : splitChar c xs with
      | nil => simp
      | cons h t => simp

theorem splitChar_of_not_mem {c : Char} {l : GoStr} (h : c ∉ l) :
    splitChar c l = [l] := by
  induction l with
  | nil => rfl
  | cons x xs ih =>
    have hx : ¬ x = c := fun he => h (by simp [he])
    have hxs : c ∉ xs := fun he => h (List.mem_cons_of_mem _ he)
    simp only [splitChar, hx, if_false, ih hxs]

theorem P3.findFile_putFile (m : List (GoStr × P3.VirtualFile)) (k : GoStr)
    (v : P3.VirtualFile) (k' : GoStr) :
    P3.findFile (P3.putFile m k v) k' =
      if k = k' then some v else P3.findFile m k' := by
  induction m with
  | nil =>
    by_cases hk : k = k' <;> simp [P3.putFile, P3.findFile, hk]
  | cons kv rest ih =>
    by_cases hk : kv.1 = k
    · by_cases hk' : k = k'
      · simp only [P3.putFile, hk, if_pos rfl, P3.findFile, hk']
        simp
      · have hne : ¬ kv.1 = k' := by rw [hk]; exact hk'
        simp only [P3.putFile, hk, if_pos rfl, P3.findFile]
        simp [hk', hne]
    · by_cases hkv' : kv.1 = k'
      · have hne : ¬ k = k' := fun he => hk (by rw [he, hkv'])
        simp only [P3.putFile, if_neg hk, P3.findFile]
        simp [hkv', hne]
      · simp only [P3.putFile, if_neg hk, P3.findFile]
        simp [hkv', ih]

/-- `Except` result is an error. -/
def isErr {α : Type} (e : Except GoError α) : Bool :=
  match e with
  | .ok _ => false
  | .error _ => true

theorem P3.LoadFromText_single (fs : P3.VirtualFileSystem) (now : Nat) (l : GoStr)
    (hnl : '\n' ∉ l) :
    P3.LoadFromText fs now l =
      match P3.processLine fs now l with
      | .error e => .error e
      | .ok fs' =>
        .ok (if (P3.findFile fs'.files (str "/")).isSome then fs'
             else { files := P3.putFile fs'.files (str "/") (P3.rootEntry now) }) := by
  unfold P3.LoadFromText
  rw [splitChar_of_not_mem hnl]
  cases hp : P3.processLine fs now l <;> simp [List.foldlM, hp]

/-- C7: in the part_003 bulk-load input the third (`displayName`) field is
optional — a well-formed two-field line `path#size` is accepted and the
created entry's displayName defaults to the final path segment — and a
non-blank, non-comment line is rejected exactly when it has fewer than two
fields or a non-numeric size. -/
theorem C7_optional_displayname (fs : P3.VirtualFileSystem) (now : Nat) (l : GoStr)
    (hnl : '\n' ∉ l) :
    (∀ p s n, splitChar '#' (trimSpace l) = [p, s] →
      ¬ (trimSpace l).head? = some '#' →
      parseInt64 (trimSpace s) = some n →
      ∃ fs' vf, P3.LoadFromText fs now l = .ok fs' ∧
        P3.findFile fs'.files (trimSpace p) = some vf ∧
        vf.displayName = goBase (trimSpace p) ∧
        vf.size = n ∧ vf.isDir = false) ∧
    (isErr (P3.LoadFromText fs now l) = true ↔
      ((¬ trimSpace l = []) ∧ ¬ (trimSpace l).head? = some '#' ∧
        ((splitChar '#' (trimSpace l)).length < 2 ∨
          parseInt64 (trimSpace ((splitChar '#' (trimSpace l)).getD 1 [])) = none))) := by
  rw [P3.LoadFromText_single fs now l hnl]
  constructor
  · intro p s n hsplit hhash hparse
    have hne : ¬ trimSpace l = [] := by
      intro h0
      rw [h0] at hsplit
      simp [splitChar] at hsplit
    have hproc : P3.processLine fs now l =
        .ok { files := P3.putFile (P3.ensureParents now fs.files (trimSpace p))
                (trimSpace p)
                (P3.mkLeafEntry now (trimSpace p) n (goBase (trimSpace p))) } := by
      unfold P3.processLine
      rw [if_neg (by simp [hne, hhash]), hsplit]
      simp [hparse, P3.mkLeafEntry]
    rw [hproc]
    set path := trimSpace p with hpath
    set leaf := P3.mkLeafEntry now path n (goBase path) with hleaf
    set fs1 := P3.putFile (P3.ensureParents now fs.files path) path leaf with hfs1
    have hfind1 : P3.findFile fs1 path = some leaf := by
      rw [hfs1, P3.findFile_putFile]
      simp
    by_cases hroot : (P3.findFile fs1 (str "/")).isSome
    · refine ⟨{ files := fs1 }, leaf, ?_, hfind1, rfl, rfl, rfl⟩
      simp [hroot]
    · have hnr : ¬ str "/" = path := by
        intro he
        rw [he] at hroot
        rw [hfind1] at hroot
        simp at hroot
      refine ⟨{ files := P3.putFile fs1 (str "/") (P3.rootEntry now) }, leaf,
        ?_, ?_, rfl, rfl, rfl⟩
      · simp [hroot]
      · simp only [P3.findFile_putFile, if_neg hnr]
        exact hfind1
  · by_cases hskip : trimSpace l = [] ∨ (trimSpace l).head? = some '#'
    · have hproc : P3.processLine fs now l = .ok fs := by
        unfold P3.processLine
        rw [if_pos (by rcases hskip with h | h <;> simp [h])]
      rw [hproc]
      simp [isErr]
      intro h1 h2
      rcases hskip with h | h
      · exact absurd h h1
      · exact absurd h h2
    · push_neg at hskip
      obtain ⟨hne, hhash⟩ := hskip
      rcases hsp : splitChar '#' (trimSpace l) with _ | ⟨p0, _ | ⟨p1, rest⟩⟩
      · exact absurd hsp (splitChar_ne_nil _ _)
      · have hproc : P3.processLine fs now l = .error (.lineFormat (trimSpace l)) := by
          unfold P3.processLine
          rw [if_neg (by simp [hne, hhash]), hsp]
        rw [hproc]
        simp [isErr, hne, hhash, hsp]
      · cases hparse : parseInt64 (trimSpace p1) with
        | none =>
          have hproc : P3.processLine fs now l = .error (.sizeFormat (trimSpace l)) := by
            unfold P3.processLine
            rw [if_neg (by simp [hne, hhash]), hsp]
            simp [hparse]
          rw [hproc]
          simp [isErr, hne, hhash, hsp, hparse]
        | some n =>
          have hproc : ∃ fsx, P3.processLine fs now l = .ok fsx := by
            unfold P3.processLine
            rw [if_neg (by simp [hne, hhash]), hsp]
            simp [hparse]
          obtain ⟨fsx, hproc⟩ := hproc
          rw [hproc]
          simp [isErr, hne, hhash, hsp, hparse]

/-- Witness for C7: the two-field line `/m.mkv#42` loads with displayName
defaulting to `m.mkv`, while the one-field line `/onlyonefield` is
rejected. -/
theorem C7_witness :
    (∃ fs' vf,
      P3.LoadFromText P3.NewVirtualFileSystem 0 (str "/m.mkv#42") = .ok fs' ∧
      P3.findFile fs'.files (trimSpace (str "/m.mkv")) = some vf ∧
      vf.displayName = goBase (trimSpace (str "/m.mkv")) ∧
      vf.size = 42 ∧ vf.isDir = false) ∧
    isErr (P3.LoadFromText P3.NewVirtualFileSystem 0 (str "/onlyonefield")) = true := by
  constructor
  · exact (C7_optional_displayname P3.NewVirtualFileSystem 0 (str "/m.mkv#42")
      (by decide)).1 (str "/m.mkv") (str "42") 42 (by decide) (by decide) (by decide)
  · exact (C7_optional_displayname P3.NewVirtualFileSystem 0 (str "/onlyonefield")
      (by decide)).2.mpr ⟨by decide, by decide, Or.inl (by decide)⟩

/-! ### C8: operations on a closed handle -/

/-- One operation a caller can issue on a `VirtualFileHandle`; reads of the
package-level store and the current time are carried as arguments. -/
inductive HOp where
  | read (plen : Nat)
  | write (now : Nat) (p : List Nat)
  | seek (off : Int) (whence : Int)
  | readdir (store : P3.VirtualFileSystem) (count : Int)
  | statH
  | close

/-- Run one handle operation, keeping only the error component of the
result (the claim concerns which error each operation fails with). -/
def opErr (h : P3.VirtualFileHandle) : HOp → Option GoError × P3.VirtualFileHandle
  | .read plen =>
    let r := P3.VirtualFileHandle.Read h plen
    (r.1.2, r.2)
  | .write now p =>
    let r := P3.VirtualFileHandle.Write h now p
    (r.1.2, r.2)
  | .seek off whence =>
    match P3.VirtualFileHandle.Seek h off whence with
    | (.ok _, h') => (none, h')
    | (.error e, h') => (some e, h')
  | .readdir store count =>
    match P3.VirtualFileHandle.Readdir h store count with
    | (.ok _, h') => (none, h')
    | (.error e, h') => (some e, h')
  | .statH =>
    match P3.VirtualFileHandle.StatH h with
    | (.ok _, h') => (none, h')
    | (.error e, h') => (some e, h')
  | .close =>
    match P3.VirtualFileHandle.Close h with
    | (.ok _, h') => (none, h')
    | (.error e, h') => (some e, h')

/-- Run a sequence of handle operations, collecting each one's error. -/
def runOps (h : P3.VirtualFileHandle) : List HOp → List (Option GoError) × P3.VirtualFileHandle
  | [] => ([], h)
  | op :: rest =>
    let r := opErr h op
    let rr := runOps r.2 rest
    (r.1 :: rr.1, rr.2)

theorem opErr_closed (h : P3.VirtualFileHandle) (hc : h.closed = true) (op : HOp) :
    opErr h op = (some .closed, h) := by
  cases op <;>
    simp [opErr, P3.VirtualFileHandle.Read, P3.VirtualFileHandle.Write,
      P3.VirtualFileHandle.Seek, P3.VirtualFileHandle.Readdir,
      P3.VirtualFileHandle.StatH, P3.VirtualFileHandle.Close, hc]

/-- C8: once a handle has been closed (a successful `Close` from state
`h₀` produced `h`), every operation in any subsequent sequence — Read,
Write, Seek, Readdir, Stat, and any second Close — fails with the
handle-closed error `os.ErrClosed`, and the handle never changes again
(part_003, `VirtualFileHandle`). -/
theorem C8_closed_handle (h₀ h : P3.VirtualFileHandle) (ops : List HOp)
    (hclosed : P3.VirtualFileHandle.Close h₀ = (.ok (), h)) :
    runOps h ops = (ops.map (fun _ => some GoError.closed), h) := by
  have hc : h.closed = true := by
    by_cases h0 : h₀.closed
    · rw [P3.VirtualFileHandle.Close, if_pos h0] at hclosed
      cases hclosed
    · rw [P3.VirtualFileHandle.Close, if_neg h0] at hclosed
      cases hclosed
      rfl
  clear hclosed
  induction ops with
  | nil => simp [runOps]
  | cons op rest ih =>
    simp [runOps, opErr_closed h hc op, ih]

/-- Witness for C8: closing the sample handle and then issuing each of the
six operations yields six handle-closed errors and a final state equal to
the closed handle. -/
theorem C8_witness :
    runOps { h6 with closed := true }
        [.read 4, .write 0 [1], .seek 2 0, .readdir P3.NewVirtualFileSystem 0,
         .statH, .close] =
      ([some .closed, some .closed, some .closed, some .closed,
        some .closed, some .closed], { h6 with closed := true }) := by
  have hthm := C8_closed_handle h6 { h6 with closed := true }
    [.read 4, .write 0 [1], .seek 2 0, .readdir P3.NewVirtualFileSystem 0,
     .statH, .close] (by rfl)
  simpa using hthm

/-! ### C4: remove cascade -/

theorem P3.findFile_mem {m : List (GoStr × P3.VirtualFile)} {k : GoStr}
    {v : P3.VirtualFile} (h : P3.findFile m k = some v) : (k, v) ∈ m := by
  induction m with
  | nil => simp [P3.findFile] at h
  | cons kv rest ih =>
    by_cases hk : kv.1 = k
    · rw [P3.findFile, if_pos hk] at h
      cases h
      have hkv : kv = (k, kv.2) := by
        rw [Prod.ext_iff]
        exact ⟨hk, rfl⟩
      rw [← hkv]
      exact List.mem_cons_self _ _
    · rw [P3.findFile, if_neg hk] at h
      exact List.mem_cons_of_mem _ (ih h)

theorem P3.findFile_filter_none (m : List (GoStr × P3.VirtualFile))
    (f : GoStr × P3.VirtualFile → Bool) (k : GoStr)
    (h : ∀ v, f (k, v) = false) :
    P3.findFile (m.filter f) k = none := by
  induction m with
  | nil => simp [P3.findFile]
  | cons kv rest ih =>
    by_cases hf : f kv
    · have hk : ¬ kv.1 = k := by
        intro he
        have : f (k, kv.2) = true := by
          rw [← he]
          exact hf
        rw [h kv.2] at this
        cases this
      rw [List.filter_cons_of_pos hf, P3.findFile, if_neg hk]
      exact ih
    · rw [List.filter_cons_of_neg (by simpa using hf)]
      exact ih

theorem P3.findFile_filter_eq (m : List (GoStr × P3.VirtualFile))
    (f : GoStr × P3.VirtualFile → Bool) (k : GoStr)
    (h : ∀ v, f (k, v) = true) :
    P3.findFile (m.filter f) k = P3.findFile m k := by
  induction m with
  | nil => simp
  | cons kv rest ih =>
    by_cases hk : kv.1 = k
    · have hf : f kv = true := by
        have : kv = (k, kv.2) := by
          rw [Prod.ext_iff]
          exact ⟨hk, rfl⟩
        rw [this]
        exact h kv.2
      rw [List.filter_cons_of_pos hf, P3.findFile, if_pos hk,
        P3.findFile, if_pos hk]
    · by_cases hf : f kv
      · rw [List.filter_cons_of_pos hf, P3.findFile, if_neg hk,
          P3.findFile, if_neg hk]
        exact ih
      · rw [List.filter_cons_of_neg (by simpa using hf), P3.findFile, if_neg hk]
        exact ih

theorem length_filter_or {α : Type} (m : List α) (p q : α → Bool)
    (hdisj : ∀ x ∈ m, ¬ (p x = true ∧ q x = true)) :
    (m.filter (fun x => p x || q x)).length
      = (m.filter p).length + (m.filter q).length := by
  induction m with
  | nil => simp
  | cons x rest ih =>
    have hrest : ∀ y ∈ rest, ¬ (p y = true ∧ q y = true) :=
      fun y hy => hdisj y (List.mem_cons_of_mem _ hy)
    have hx := hdisj x (List.mem_cons_self _ _)
    by_cases hp : p x <;> by_cases hq : q x
    · exact absurd ⟨hp, hq⟩ hx
    · simp [hp, hq, ih hrest]
      omega
    · simp [hp, hq, ih hrest]
      omega
    · simp [hp, hq, ih hrest]

theorem P3.filter_key_eq_nil {m : List (GoStr × P3.VirtualFile)} {name : GoStr}
    (h : name ∉ m.map Prod.fst) :
    m.filter (fun kv => kv.1 = name) = [] := by
  refine List.filter_eq_nil_iff.mpr ?_
  intro kv hkv
  simp only [decide_eq_true_eq]
  intro he
  exact h (by
    rw [← he]
    exact List.mem_map_of_mem Prod.fst hkv)

theorem P3.length_filter_key_eq_one {m : List (GoStr × P3.VirtualFile)}
    {name : GoStr} (hnd : (m.map Prod.fst).Nodup)
    (hf : (P3.findFile m name).isSome) :
    (m.filter (fun kv => kv.1 = name)).length = 1 := by
  induction m with
  | nil => simp [P3.findFile] at hf
  | cons kv rest ih =>
    rw [List.map_cons, List.nodup_cons] at hnd
    by_cases hk : kv.1 = name
    · rw [List.filter_cons_of_pos (by simpa using hk)]
      rw [P3.filter_key_eq_nil (by rw [← hk]; exact hnd.1)]
      rfl
    · rw [P3.findFile, if_neg hk] at hf
      rw [List.filter_cons_of_neg (by simpa using hk)]
      exact ih hnd.2 hf

theorem not_isPrefixOf_append_slash (name k : GoStr) (hk : k = name) :
    (name ++ str "/").isPrefixOf k = false := by
  subst hk
  by_contra h
  rw [Bool.not_eq_false] at h
  have hle := List.IsPrefix.length_le (List.isPrefixOf_iff_prefix.mp h)
  have hlen : (k ++ str "/").length = k.length + 1 := by
    rw [List.length_append]
    rfl
  omega

/-- C4: `RemoveAll` deletes exactly the entry at `name` and every entry
whose path starts with `name + "/"` — `N+1` entries when the entry exists
and has `N` prefixed descendants — after which `Stat` on any of them is
NotFound and all other entries are untouched; when no entry matches, it
fails with NotFound leaving the store unchanged (part_003). -/
theorem C4_remove_cascade (fs : P3.VirtualFileSystem) (name : GoStr)
    (hnd : (fs.files.map Prod.fst).Nodup) :
    ((∀ kv ∈ fs.files,
        ¬ kv.1 = name ∧ (name ++ str "/").isPrefixOf kv.1 = false) →
      P3.RemoveAll fs name = (.error .notExist, fs)) ∧
    (∀ f, P3.findFile fs.files name = some f →
      (P3.RemoveAll fs name).1 = .ok () ∧
      (∀ k, (k = name ∨ (name ++ str "/").isPrefixOf k = true) →
        P3.Stat (P3.RemoveAll fs name).2 k = .error .notExist) ∧
      (∀ k, ¬ k = name → (name ++ str "/").isPrefixOf k = false →
        P3.findFile (P3.RemoveAll fs name).2.files k = P3.findFile fs.files k) ∧
      fs.files.length = (P3.RemoveAll fs name).2.files.length + 1 +
        (fs.files.filter
          (fun kv => (name ++ str "/").isPrefixOf kv.1)).length) := by
  constructor
  · intro hnone
    have hfilter : fs.files.filter
        (fun kv => kv.1 = name || (name ++ str "/").isPrefixOf kv.1) = [] := by
      refine List.filter_eq_nil_iff.mpr ?_
      intro kv hkv
      obtain ⟨h1, h2⟩ := hnone kv hkv
      simp [h1, h2]
    rw [P3.RemoveAll, hfilter]
    rfl
  · intro f hfind
    have hmem : (name, f) ∈ fs.files := P3.findFile_mem hfind
    have hmemf : (name, f) ∈ fs.files.filter
        (fun kv => kv.1 = name || (name ++ str "/").isPrefixOf kv.1) := by
      refine List.mem_filter.mpr ⟨hmem, ?_⟩
      simp
    have hne : ¬ (fs.files.filter
        (fun kv => kv.1 = name || (name ++ str "/").isPrefixOf kv.1)).length = 0 := by
      intro h0
      rw [List.length_eq_zero] at h0
      rw [h0] at hmemf
      cases hmemf
    refine ⟨?_, ?_, ?_, ?_⟩
    · rw [P3.RemoveAll]
      simp only [if_neg hne]
    · intro k hk
      rw [P3.RemoveAll]
      simp only [if_neg hne]
      rw [P3.Stat]
      rw [P3.findFile_filter_none]
      intro v
      rcases hk with hk | hk
      · simp [hk]
      · simp [hk]
    · intro k hk1 hk2
      rw [P3.RemoveAll]
      simp only [if_neg hne]
      rw [P3.findFile_filter_eq]
      intro v
      simp [hk1, hk2]
    · rw [P3.RemoveAll]
      simp only [if_neg hne]
      have htot := @List.length_eq_length_filter_add _ fs.files
        (fun kv => kv.1 = name || (name ++ str "/").isPrefixOf kv.1)
      have hsplit : (fs.files.filter
          (fun kv => kv.1 = name || (name ++ str "/").isPrefixOf kv.1)).length
          = (fs.files.filter (fun kv => kv.1 = name)).length
            + (fs.files.filter
                (fun kv => (name ++ str "/").isPrefixOf kv.1)).length := by
        refine length_filter_or fs.files
          (fun kv => kv.1 = name)
          (fun kv => (name ++ str "/").isPrefixOf kv.1) ?_
        intro kv hkv hand
        obtain ⟨h1, h2⟩ := hand
        rw [decide_eq_true_eq] at h1
        have h2' : (name ++ str "/").isPrefixOf kv.1 = true := h2
        rw [not_isPrefixOf_append_slash name kv.1 h1] at h2'
        cases h2'
      have hone := P3.length_filter_key_eq_one hnd (by rw [hfind]; rfl)
      have hconv : fs.files.filter
            (fun kv => ¬ (kv.1 = name || (name ++ str "/").isPrefixOf kv.1))
          = fs.files.filter
            (fun x => !(decide (x.1 = name) ||
              (name ++ str "/").isPrefixOf x.1)) := by
        refine List.filter_congr ?_
        intro a ha
        simp [← List.isPrefixOf_iff_prefix]
      rw [hconv]
      omega

/-- Bare entry constructor for sample stores. -/
def sampleEntry (nm : String) (dir : Bool) (sz : Int) : P3.VirtualFile :=
  { name := str nm, displayName := str nm, size := sz, modTime := 0,
    isDir := dir, content := [], properties := [] }

/-- Sample store for C4: directory `/a` with two descendants plus an
unrelated file `/b`. -/
def c4fs : P3.VirtualFileSystem :=
  { files := [ (str "/a", sampleEntry "a" true 0)
             , (str "/a/x", sampleEntry "x" false 3)
             , (str "/a/y", sampleEntry "y" false 4)
             , (str "/b", sampleEntry "b" false 1) ] }

/-- Witness for C4: removing `/zz` fails leaving the store unchanged;
removing `/a` succeeds, makes `/a/x` NotFound, keeps `/b`, and removes
exactly `N+1 = 3` of the 4 entries. -/
theorem C4_witness :
    P3.RemoveAll c4fs (str "/zz") = (.error .notExist, c4fs) ∧
    (P3.RemoveAll c4fs (str "/a")).1 = .ok () ∧
    P3.Stat (P3.RemoveAll c4fs (str "/a")).2 (str "/a/x") = .error .notExist ∧
    P3.findFile (P3.RemoveAll c4fs (str "/a")).2.files (str "/b")
      = P3.findFile c4fs.files (str "/b") ∧
    c4fs.files.length = (P3.RemoveAll c4fs (str "/a")).2.files.length + 1 +
      (c4fs.files.filter
        (fun kv => (str "/a" ++ str "/").isPrefixOf kv.1)).length := by
  have h1 := (C4_remove_cascade c4fs (str "/zz") (by decide)).1 (by decide)
  have h2 := (C4_remove_cascade c4fs (str "/a") (by decide)).2
    (sampleEntry "a" true 0) (by rfl)
  exact ⟨h1, h2.1, h2.2.1 (str "/a/x") (Or.inr (by decide)),
    h2.2.2.1 (str "/b") (by decide) (by decide), h2.2.2.2⟩

/-! ### C3: rename of a directory subtree -/

theorem P3.findFile_foldl_put_notmem (l : List (GoStr × P3.VirtualFile))
    (m : List (GoStr × P3.VirtualFile)) (k : GoStr)
    (h : k ∉ l.map Prod.fst) :
    P3.findFile (l.foldl (fun acc kv => P3.putFile acc kv.1 kv.2) m) k
      = P3.findFile m k := by
  induction l generalizing m with
  | nil => rfl
  | cons kv rest ih =>
    rw [List.map_cons] at h
    have hk : ¬ kv.1 = k := fun he => h (by rw [he]; exact List.mem_cons_self _ _)
    have hrest : k ∉ rest.map Prod.fst := fun he => h (List.mem_cons_of_mem _ he)
    rw [List.foldl_cons, ih _ hrest, P3.findFile_putFile, if_neg hk]

theorem P3.findFile_foldl_put_mem (l : List (GoStr × P3.VirtualFile))
    (m : List (GoStr × P3.VirtualFile)) (k : GoStr) (v : P3.VirtualFile)
    (hnd : (l.map Prod.fst).Nodup) (hmem : (k, v) ∈ l) :
    P3.findFile (l.foldl (fun acc kv => P3.putFile acc kv.1 kv.2) m) k
      = some v := by
  induction l generalizing m with
  | nil => cases hmem
  | cons kv rest ih =>
    rw [List.map_cons, List.nodup_cons] at hnd
    rw [List.foldl_cons]
    rcases List.mem_cons.mp hmem with heq | hmem'
    · have hk1 : kv.1 = k := by rw [← heq]
      have hk : k ∉ rest.map Prod.fst := by
        rw [← hk1]
        exact hnd.1
      rw [P3.findFile_foldl_put_notmem _ _ _ hk, ← heq,
        P3.findFile_putFile, if_pos rfl]
    · exact ih _ hnd.2 hmem'

/-- Decomposition of a key inside the renamed subtree: the key is `oldN`
followed by a suffix that is empty or starts with `'/'`, and
`strings.TrimPrefix` recovers exactly that suffix. -/
theorem rename_key_shape {oldN k : GoStr}
    (hk : k = oldN ∨ (oldN ++ str "/").isPrefixOf k = true) :
    ∃ s, k = oldN ++ s ∧ strTrimPre k oldN = s ∧
      (s = [] ∨ ∃ u, s = '/' :: u) := by
  rcases hk with hk | hk
  · refine ⟨[], by simp [hk], ?_, Or.inl rfl⟩
    rw [strTrimPre,
      if_pos (by rw [hk]; exact List.isPrefixOf_iff_prefix.mpr (by simp))]
    simp [hk]
  · obtain ⟨t, ht⟩ := List.isPrefixOf_iff_prefix.mp hk
    have hks : k = oldN ++ '/' :: t := by
      rw [← ht]
      simp [str]
    refine ⟨'/' :: t, hks, ?_, Or.inr ⟨t, rfl⟩⟩
    rw [strTrimPre,
      if_pos (List.isPrefixOf_iff_prefix.mpr (by rw [hks]; exact List.prefix_append _ _))]
    rw [hks, List.drop_left]

/-- Under the non-overlap side conditions, a rewritten target path never
coincides with `oldN` or with any path inside the `oldN` subtree. -/
theorem rename_target_fresh {oldN newN s : GoStr}
    (hshape : s = [] ∨ ∃ u, s = '/' :: u)
    (hne : ¬ oldN = newN)
    (h1 : (oldN ++ str "/").isPrefixOf newN = false)
    (h2 : (newN ++ str "/").isPrefixOf oldN = false) :
    ¬ (newN ++ s = oldN ∨ (oldN ++ str "/").isPrefixOf (newN ++ s) = true) := by
  have h1' : ¬ (oldN ++ str "/") <+: newN := by
    intro hcon
    have hb := List.isPrefixOf_iff_prefix.mpr hcon
    rw [h1] at hb
    cases hb
  have h2' : ¬ (newN ++ str "/") <+: oldN := by
    intro hcon
    have hb := List.isPrefixOf_iff_prefix.mpr hcon
    rw [h2] at hb
    cases hb
  intro hcon
  rcases hcon with hA | hB
  · rcases hshape with rfl | ⟨u, rfl⟩
    · rw [List.append_nil] at hA
      exact hne hA.symm
    · apply h2'
      rw [← hA]
      have hrw : newN ++ '/' :: u = (newN ++ str "/") ++ u := by
        simp [str]
      rw [hrw]
      exact List.prefix_append _ _
  · have hBpre : (oldN ++ str "/") <+: newN ++ s :=
      List.isPrefixOf_iff_prefix.mp hB
    have hn : newN <+: newN ++ s := List.prefix_append _ _
    rcases List.prefix_or_prefix_of_prefix hBpre hn with hc | hc
    · exact h1' hc
    · obtain ⟨t, ht⟩ := hc
      rcases t with _ | ⟨c, t'⟩
      · rw [List.append_nil] at ht
        exact h1' (by rw [← ht])
      · have hts : (c :: t') <+: s := by
          refine (List.prefix_append_right_inj newN).mp ?_
          rw [ht]
          exact hBpre
        rcases hshape with rfl | ⟨u, rfl⟩
        · cases List.prefix_nil.mp hts
        · rw [List.cons_prefix_cons] at hts
          obtain ⟨rfl, htu⟩ := hts
          rcases List.eq_nil_or_concat' t' with rfl | ⟨t'', d, rfl⟩
          · have hnn : newN = oldN := by
              have h'' : newN ++ ['/'] = oldN ++ ['/'] := ht
              exact (List.append_inj' h'' rfl).1
            exact hne hnn.symm
          · have hsplit2 : (newN ++ '/' :: t'') ++ [d] = oldN ++ str "/" := by
              rw [← ht]
              simp
            obtain ⟨he1, he2⟩ := List.append_inj' hsplit2 (by rfl)
            apply h2'
            rw [← he1]
            have hrw : newN ++ '/' :: t'' = (newN ++ str "/") ++ t'' := by
              simp [str]
            rw [hrw]
            exact List.prefix_append _ _

/-- The map the directory branch of `Rename` builds: the matching keys,
rewritten with the `oldN` prefix replaced by `newN`, inserted over the
store purged of the matching keys. -/
def renameDirFiles (files : List (GoStr × P3.VirtualFile)) (oldN newN : GoStr) :
    List (GoStr × P3.VirtualFile) :=
  ((files.filter
      (fun kv => kv.1 = oldN || (oldN ++ str "/").isPrefixOf kv.1)).map
    (fun kv => (newN ++ strTrimPre kv.1 oldN, kv.2))).foldl
      (fun m kv => P3.putFile m kv.1 kv.2)
      (files.filter
        (fun kv => ¬ (kv.1 = oldN || (oldN ++ str "/").isPrefixOf kv.1)))

/-- C3 (amended): `Rename` fails with NotFound when `oldPath` is absent; an
existing file entry is a single key move; for an existing directory entry,
provided `newPath` neither equals `oldPath` nor lies inside `oldPath`'s
subtree nor vice versa, the rename succeeds, every moved path (the entry
and each descendant, with the `oldPath` prefix replaced by `newPath`)
stats to its original entry, while `oldPath` and every path it prefixed
are NotFound (part_003, `VirtualFileSystem.Rename`). -/
theorem C3_rename_subtree (fs : P3.VirtualFileSystem) (oldN newN : GoStr)
    (hnd : (fs.files.map Prod.fst).Nodup) :
    (P3.findFile fs.files oldN = none →
      P3.Rename fs oldN newN = (.error .notExist, fs)) ∧
    (∀ f, P3.findFile fs.files oldN = some f → f.isDir = false →
      P3.Rename fs oldN newN =
        (.ok (),
          { files := P3.putFile (fs.files.filter (fun kv => ¬ kv.1 = oldN))
                       newN f })) ∧
    (∀ f, P3.findFile fs.files oldN = some f → f.isDir = true →
      ¬ oldN = newN →
      (oldN ++ str "/").isPrefixOf newN = false →
      (newN ++ str "/").isPrefixOf oldN = false →
      (P3.Rename fs oldN newN).1 = .ok () ∧
      (∀ k v, P3.findFile fs.files k = some v →
        (k = oldN ∨ (oldN ++ str "/").isPrefixOf k = true) →
        P3.Stat (P3.Rename fs oldN newN).2 (newN ++ strTrimPre k oldN)
          = .ok v) ∧
      (∀ k, (k = oldN ∨ (oldN ++ str "/").isPrefixOf k = true) →
        P3.Stat (P3.Rename fs oldN newN).2 k = .error .notExist)) := by
  refine ⟨?_, ?_, ?_⟩
  · intro h
    rw [P3.Rename, h]
  · intro f hf hdir
    rw [P3.Rename, hf]
    simp [hdir]
  · intro f hf hdir hne h1 h2
    have hres : P3.Rename fs oldN newN =
        (.ok (), { files := renameDirFiles fs.files oldN newN }) := by
      rw [P3.Rename, hf]
      simp [hdir, renameDirFiles]
    have hpairs : fs.files.Nodup := List.Nodup.of_map _ hnd
    have hinjfst : ∀ x ∈ fs.files, ∀ y ∈ fs.files, x.1 = y.1 → x = y :=
      (List.nodup_map_iff_inj_on hpairs).mp hnd
    have hfiltpairs : (fs.files.filter
        (fun kv => kv.1 = oldN || (oldN ++ str "/").isPrefixOf kv.1)).Nodup :=
      (List.filter_sublist _).nodup hpairs
    have hchildnd : ((((fs.files.filter
        (fun kv => kv.1 = oldN || (oldN ++ str "/").isPrefixOf kv.1)).map
          (fun kv => (newN ++ strTrimPre kv.1 oldN, kv.2))).map
            Prod.fst)).Nodup := by
      rw [List.map_map]
      refine (List.nodup_map_iff_inj_on hfiltpairs).mpr ?_
      intro x hx y hy hxy
      simp only [Function.comp] at hxy
      have hxm : x.1 = oldN ∨ (oldN ++ str "/").isPrefixOf x.1 = true := by
        have hb := (List.mem_filter.mp hx).2
        simpa using hb
      have hym : y.1 = oldN ∨ (oldN ++ str "/").isPrefixOf y.1 = true := by
        have hb := (List.mem_filter.mp hy).2
        simpa using hb
      obtain ⟨sx, hksx, htsx, _⟩ := rename_key_shape hxm
      obtain ⟨sy, hksy, htsy, _⟩ := rename_key_shape hym
      rw [htsx, htsy] at hxy
      have hs : sx = sy := List.append_cancel_left hxy
      have hkeq : x.1 = y.1 := by
        rw [hksx, hksy, hs]
      exact hinjfst x (List.mem_of_mem_filter hx) y
        (List.mem_of_mem_filter hy) hkeq
    refine ⟨by rw [hres], ?_, ?_⟩
    · intro k v hkv hmatch
      obtain ⟨s, hks, hts, hshape⟩ := rename_key_shape hmatch
      have hmemf : (k, v) ∈ fs.files.filter
          (fun kv => kv.1 = oldN || (oldN ++ str "/").isPrefixOf kv.1) := by
        refine List.mem_filter.mpr ⟨P3.findFile_mem hkv, ?_⟩
        rcases hmatch with hm | hm <;> simp [hm]
      have hmemc : (newN ++ s, v) ∈ (fs.files.filter
          (fun kv => kv.1 = oldN || (oldN ++ str "/").isPrefixOf kv.1)).map
            (fun kv => (newN ++ strTrimPre kv.1 oldN, kv.2)) := by
        refine List.mem_map.mpr ⟨(k, v), hmemf, ?_⟩
        simp [hts]
      rw [hres, P3.Stat]
      rw [hts, renameDirFiles]
      rw [P3.findFile_foldl_put_mem _ _ _ _ hchildnd hmemc]
    · intro k hmatch
      rw [hres, P3.Stat, renameDirFiles]
      have hnotmem : k ∉ (((fs.files.filter
          (fun kv => kv.1 = oldN || (oldN ++ str "/").isPrefixOf kv.1)).map
            (fun kv => (newN ++ strTrimPre kv.1 oldN, kv.2))).map Prod.fst) := by
        intro hmem
        rw [List.map_map] at hmem
        obtain ⟨x, hx, hxk⟩ := List.mem_map.mp hmem
        simp only [Function.comp] at hxk
        have hxm : x.1 = oldN ∨ (oldN ++ str "/").isPrefixOf x.1 = true := by
          have hb := (List.mem_filter.mp hx).2
          simpa using hb
        obtain ⟨sx, hksx, htsx, hshapex⟩ := rename_key_shape hxm
        rw [htsx] at hxk
        refine rename_target_fresh hshapex hne h1 h2 ?_
        rw [hxk]
        exact hmatch
      rw [P3.findFile_foldl_put_notmem _ _ _ hnotmem]
      rw [P3.findFile_filter_none]
      intro v
      rcases hmatch with hm | hm <;> simp [hm]

/-- Sample store for C3: directory `/a` with one descendant. -/
def c3fs : P3.VirtualFileSystem :=
  { files := [ (str "/a", sampleEntry "a" true 0)
             , (str "/a/x", sampleEntry "x" false 3) ] }

/-- Counterexample to C3 as stated: renaming the directory `/a` to itself
succeeds, and afterwards `stat(oldPath)` still succeeds — it does not
return NotFound as the unconditional claim requires. -/
theorem C3_counterexample :
    P3.findFile c3fs.files (str "/a") = some (sampleEntry "a" true 0) ∧
    (sampleEntry "a" true 0).isDir = true ∧
    (P3.Rename c3fs (str "/a") (str "/a")).1 = .ok () ∧
    P3.Stat (P3.Rename c3fs (str "/a") (str "/a")).2 (str "/a")
      = .ok (sampleEntry "a" true 0) ∧
    P3.Stat (P3.Rename c3fs (str "/a") (str "/a")).2 (str "/a/x")
      = .ok (sampleEntry "x" false 3) :=
  ⟨rfl, rfl, rfl, rfl, rfl⟩

/-- Witness for C3: renaming `/a` to the disjoint `/b` moves both entries,
after which the new paths stat to the original entries and the old paths
are NotFound; renaming an absent path fails with NotFound. -/
theorem C3_witness :
    (P3.Rename c3fs (str "/a") (str "/b")).1 = .ok () ∧
    P3.Stat (P3.Rename c3fs (str "/a") (str "/b")).2
        (str "/b" ++ strTrimPre (str "/a") (str "/a"))
      = .ok (sampleEntry "a" true 0) ∧
    P3.Stat (P3.Rename c3fs (str "/a") (str "/b")).2
        (str "/b" ++ strTrimPre (str "/a/x") (str "/a"))
      = .ok (sampleEntry "x" false 3) ∧
    P3.Stat (P3.Rename c3fs (str "/a") (str "/b")).2 (str "/a")
      = .error .notExist ∧
    P3.Stat (P3.Rename c3fs (str "/a") (str "/b")).2 (str "/a/x")
      = .error .notExist ∧
    P3.Rename c3fs (str "/zz") (str "/q") = (.error .notExist, c3fs) := by
  have h3 := (C3_rename_subtree c3fs (str "/a") (str "/b") (by decide)).2.2
    (sampleEntry "a" true 0) (by rfl) (by rfl) (by decide) (by decide) (by decide)
  exact ⟨h3.1,
    h3.2.1 (str "/a") (sampleEntry "a" true 0) (by rfl) (Or.inl rfl),
    h3.2.1 (str "/a/x") (sampleEntry "x" false 3) (by rfl) (Or.inr (by decide)),
    h3.2.2 (str "/a") (Or.inl rfl),
    h3.2.2 (str "/a/x") (Or.inr (by decide)),
    (C3_rename_subtree c3fs (str "/zz") (str "/q") (by decide)).1 (by rfl)⟩

/-! ### C1: hierarchy closure after bulk load -/

/-- A path component as `Clean` leaves it in a rooted path: nonempty, not
`.` or `..`, and free of separators. -/
def GoodComp (c : GoStr) : Prop :=
  c ≠ [] ∧ c ≠ ['.'] ∧ c ≠ ['.', '.'] ∧ '/' ∉ c

theorem mem_splitChar_not_mem {c : Char} {l : GoStr} :
    ∀ x ∈ splitChar c l, c ∉ x := by
  induction l with
  | nil =>
    intro x hx
    simp [splitChar] at hx
    simp [hx]
  | cons a as ih =>
    intro x hx
    by_cases ha : a = c
    · rw [splitChar, if_pos ha] at hx
      rcases List.mem_cons.mp hx with rfl | hx'
      · simp
      · exact ih x hx'
    · rw [splitChar, if_neg ha] at hx
      rcases hsp : splitChar c as with _ | ⟨h0, t0⟩
      · exact absurd hsp (splitChar_ne_nil _ _)
      · rw [hsp] at hx
        rcases List.mem_cons.mp hx with rfl | hx'
        · intro hc
          rcases List.mem_cons.mp hc with he | hc'
          · exact ha he.symm
          · exact ih h0 (by rw [hsp]; exact List.mem_cons_self _ _) hc'
        · exact ih x (by rw [hsp]; exact List.mem_cons_of_mem _ hx')

theorem joinChar_cons_ne {c : Char} {x : GoStr} {t : List GoStr} (h : t ≠ []) :
    joinChar c (x :: t) = x ++ c :: joinChar c t := by
  cases t with
  | nil => cases h rfl
  | cons y ys => rfl

theorem splitChar_append_left {c : Char} {x : GoStr} (hx : c ∉ x) (r : GoStr) :
    splitChar c (x ++ c :: r) = x :: splitChar c r := by
  induction x with
  | nil =>
    rw [List.nil_append, splitChar, if_pos rfl]
  | cons a as ih =>
    have ha : ¬ a = c := by
      intro he
      exact hx (by rw [he]; exact List.mem_cons_self _ _)
    have has : c ∉ as := fun hc => hx (List.mem_cons_of_mem _ hc)
    rw [List.cons_append, splitChar, if_neg ha, ih has]

theorem splitChar_joinChar {c : Char} {L : List GoStr}
    (hL : L ≠ []) (hmem : ∀ x ∈ L, c ∉ x) :
    splitChar c (joinChar c L) = L := by
  induction L with
  | nil => cases hL rfl
  | cons x t ih =>
    cases t with
    | nil =>
      have hx : c ∉ x := hmem x (List.mem_cons_self _ _)
      rw [joinChar, splitChar_of_not_mem hx]
    | cons y ys =>
      rw [joinChar_cons_ne (by simp)]
      have hx : c ∉ x := hmem x (List.mem_cons_self _ _)
      have hrec : splitChar c (joinChar c (y :: ys)) = y :: ys :=
        ih (by simp) (fun z hz => hmem z (List.mem_cons_of_mem _ hz))
      rw [splitChar_append_left hx, hrec]

theorem joinChar_append_single {c : Char} {L : List GoStr} (hL : L ≠ [])
    (x : GoStr) : joinChar c (L ++ [x]) = joinChar c L ++ c :: x := by
  induction L with
  | nil => cases hL rfl
  | cons y t ih =>
    cases t with
    | nil => rfl
    | cons z zs =>
      rw [List.cons_append, joinChar_cons_ne (by simp),
        joinChar_cons_ne (by simp), ih (by simp)]
      simp

theorem joinChar_ne_nil {L : List GoStr} {c₀ : GoStr} {t : List GoStr}
    (hL : L = c₀ :: t) (h : c₀ ≠ []) : joinChar '/' L ≠ [] := by
  subst hL
  cases t with
  | nil =>
    simpa [joinChar] using h
  | cons z zs =>
    rw [joinChar_cons_ne (by simp)]
    intro hc
    rcases List.append_eq_nil.mp hc with ⟨h1, h2⟩
    cases h2

theorem joinChar_head {c₀ : GoStr} {t : List GoStr} (h : c₀ ≠ []) :
    (joinChar '/' (c₀ :: t)).head? = c₀.head? := by
  cases t with
  | nil => rfl
  | cons z zs =>
    rw [joinChar_cons_ne (by simp)]
    cases c₀ with
    | nil => cases h rfl
    | cons a as => rfl

theorem splitChar_append_sep {c : Char} (l : GoStr) :
    splitChar c (l ++ [c]) = splitChar c l ++ [[]] := by
  induction l with
  | nil => simp [splitChar]
  | cons a as ih =>
    by_cases ha : a = c
    · rw [List.cons_append, splitChar, if_pos ha, ih, splitChar, if_pos ha,
        List.cons_append]
    · rw [List.cons_append, splitChar, if_neg ha, ih]
      rcases hsp : splitChar c as with _ | ⟨h0, t0⟩
      · exact absurd hsp (splitChar_ne_nil _ _)
      · rw [splitChar, if_neg ha, hsp]
        rfl

theorem cleanRun_no_dots (rooted : Bool) (acc : List GoStr) (cs : List GoStr)
    (h : ∀ x ∈ cs, x ≠ ['.', '.']) :
    cleanRun rooted acc cs
      = acc.reverse ++ cs.filter (fun x => ¬ (x = [] ∨ x = ['.'])) := by
  induction cs generalizing acc with
  | nil => simp [cleanRun]
  | cons c cs' ih =>
    have hc := h c (List.mem_cons_self _ _)
    have hcs' : ∀ x ∈ cs', x ≠ ['.', '.'] :=
      fun x hx => h x (List.mem_cons_of_mem _ hx)
    by_cases hskip : c = [] ∨ c = ['.']
    · have hb : (c = [] || c = ['.']) = true := by
        rcases hskip with hs | hs <;> simp [hs]
      rw [cleanRun, if_pos hb, ih _ hcs',
        List.filter_cons_of_neg (by simp [hskip])]
    · have hb : ¬ (c = [] || c = ['.']) = true := by
        simp only [Bool.or_eq_true, decide_eq_true_eq]
        exact hskip
      rw [cleanRun, if_neg hb, if_neg (by simpa using hc), ih _ hcs',
        List.filter_cons_of_pos (by simpa using hskip)]
      simp

theorem mem_cleanRun_rooted {Q : GoStr → Prop} {acc cs : List GoStr}
    (hq : ¬ Q ['.', '.'])
    (hacc : ∀ y ∈ acc, Q y)
    (hcs : ∀ y ∈ cs, y = [] ∨ y = ['.'] ∨ y = ['.', '.'] ∨ Q y) :
    ∀ x ∈ cleanRun true acc cs, Q x := by
  induction cs generalizing acc with
  | nil =>
    intro x hx
    rw [cleanRun] at hx
    exact hacc x (List.mem_reverse.mp hx)
  | cons c cs' ih =>
    intro x hx
    have hcs' : ∀ y ∈ cs', y = [] ∨ y = ['.'] ∨ y = ['.', '.'] ∨ Q y :=
      fun y hy => hcs y (List.mem_cons_of_mem _ hy)
    by_cases hskip : c = [] ∨ c = ['.']
    · have hb : (c = [] || c = ['.']) = true := by
        rcases hskip with hs | hs <;> simp [hs]
      rw [cleanRun, if_pos hb] at hx
      exact ih hacc hcs' x hx
    · have hb : ¬ (c = [] || c = ['.']) = true := by
        simp only [Bool.or_eq_true, decide_eq_true_eq]
        exact hskip
      by_cases hdd : c = ['.', '.']
      · rw [cleanRun, if_neg hb, if_pos (by simpa using hdd)] at hx
        refine ih ?_ hcs' x hx
        intro y hy
        cases hacc' : acc with
        | nil =>
          rw [hacc'] at hy
          simp [cleanStepDD] at hy
        | cons a rest =>
          rw [hacc'] at hy
          have haQ : Q a := hacc a (by rw [hacc']; exact List.mem_cons_self _ _)
          have hane : ¬ a = ['.', '.'] := fun he => hq (he ▸ haQ)
          simp only [cleanStepDD, if_neg hane] at hy
          exact hacc y (by rw [hacc']; exact List.mem_cons_of_mem _ hy)
      · rw [cleanRun, if_neg hb, if_neg (by simpa using hdd)] at hx
        have hQc : Q c := by
          rcases hcs c (List.mem_cons_self _ _) with h0 | h0 | h0 | h0
          · exact absurd (Or.inl h0) hskip
          · exact absurd (Or.inr h0) hskip
          · exact absurd h0 hdd
          · exact h0
        refine ih ?_ hcs' x hx
        intro y hy
        rcases List.mem_cons.mp hy with rfl | hy'
        · exact hQc
        · exact hacc y hy'

theorem goClean_joinChar_good {L : List GoStr} (hL : L ≠ [])
    (hg : ∀ x ∈ L, GoodComp x) :
    goClean (joinChar '/' L) = joinChar '/' L := by
  obtain ⟨c₀, t, rfl⟩ : ∃ c₀ t, L = c₀ :: t := by
    cases L with
    | nil => cases hL rfl
    | cons a b => exact ⟨a, b, rfl⟩
  have hc₀ := hg c₀ (List.mem_cons_self _ _)
  have hne : joinChar '/' (c₀ :: t) ≠ [] := joinChar_ne_nil rfl hc₀.1
  have hhead : ¬ (joinChar '/' (c₀ :: t)).head? = some '/' := by
    rw [joinChar_head hc₀.1]
    cases hc : c₀ with
    | nil => exact absurd hc hc₀.1
    | cons a as =>
      simp only [List.head?, Option.some.injEq]
      intro he
      exact hc₀.2.2.2 (by rw [hc, he]; exact List.mem_cons_self _ _)
  rw [goClean, if_neg hne, if_neg hhead]
  rw [splitChar_joinChar (by simp) (fun x hx => (hg x hx).2.2.2)]
  rw [cleanRun_no_dots false [] _ (fun x hx => (hg x hx).2.2.1)]
  have hfl : (c₀ :: t).filter (fun x => ¬ (x = [] ∨ x = ['.'])) = c₀ :: t := by
    refine List.filter_eq_self.mpr ?_
    intro a ha
    have hga := hg a ha
    simp [hga.1, hga.2.1]
  simp only [List.reverse_nil, List.nil_append, hfl]
  rw [if_neg (by simp)]

theorem goClean_single_good {x : GoStr} (hx : GoodComp x) : goClean x = x := by
  have h := @goClean_joinChar_good [x] (by simp) (by simpa using hx)
  simpa [joinChar] using h

theorem goJoin2_joinChar {pre : List GoStr} {x : GoStr}
    (hpre : ∀ g ∈ pre, GoodComp g) (hx : GoodComp x) :
    goJoin2 (joinChar '/' pre) x = joinChar '/' (pre ++ [x]) := by
  cases pre with
  | nil =>
    rw [joinChar, goJoin2, if_neg (by simp [hx.1]), if_pos rfl,
      goClean_single_good hx]
    rfl
  | cons c₀ t =>
    have hna : joinChar '/' (c₀ :: t) ≠ [] :=
      joinChar_ne_nil rfl (hpre c₀ (List.mem_cons_self _ _)).1
    rw [goJoin2, if_neg (by simp [hna]), if_neg hna]
    rw [← joinChar_append_single (by simp) x]
    refine goClean_joinChar_good (by simp) ?_
    intro y hy
    rcases List.mem_append.mp hy with h | h
    · exact hpre y h
    · rw [List.mem_singleton] at h
      rw [h]
      exact hx

theorem upToLastSlash_no_slash {l : GoStr} (h : '/' ∉ l) :
    upToLastSlash l = [] := by
  induction l with
  | nil => rfl
  | cons a as ih =>
    have ha : ¬ a = '/' := by
      intro he
      exact h (by rw [he]; exact List.mem_cons_self _ _)
    have has : '/' ∉ as := fun hc => h (List.mem_cons_of_mem _ hc)
    simp [upToLastSlash, ih has, ha]

theorem upToLastSlash_append {x : GoStr} (hx : '/' ∉ x) (l : GoStr) :
    upToLastSlash (l ++ '/' :: x) = l ++ ['/'] := by
  induction l with
  | nil =>
    simp [upToLastSlash, upToLastSlash_no_slash hx]
  | cons a as ih =>
    rw [List.cons_append, upToLastSlash, ih]
    cases as with
    | nil => rfl
    | cons b bs => rfl

theorem goDir_join {pre : List GoStr} {x : GoStr}
    (hpre : ∀ g ∈ pre, GoodComp g) (hx : GoodComp x) :
    goDir ('/' :: joinChar '/' (pre ++ [x]))
      = if pre = [] then str "/" else '/' :: joinChar '/' pre := by
  cases pre with
  | nil =>
    rw [if_pos rfl]
    show goDir ('/' :: joinChar '/' [x]) = str "/"
    have hj : joinChar '/' [x] = x := rfl
    rw [hj, goDir]
    have h1 : upToLastSlash ('/' :: x) = ['/'] := by
      simp [upToLastSlash, upToLastSlash_no_slash hx.2.2.2]
    rw [h1]
    decide
  | cons c₀ t =>
    rw [if_neg (by simp)]
    have hxs : '/' ∉ x := hx.2.2.2
    have hpre' : ∀ g ∈ c₀ :: t, GoodComp g := hpre
    rw [joinChar_append_single (by simp) x, goDir]
    have harr : ('/' :: (joinChar '/' (c₀ :: t) ++ '/' :: x))
        = ('/' :: joinChar '/' (c₀ :: t)) ++ '/' :: x := rfl
    rw [harr, upToLastSlash_append hxs]
    have harr2 : ('/' :: joinChar '/' (c₀ :: t)) ++ ['/']
        = '/' :: (joinChar '/' (c₀ :: t) ++ ['/']) := rfl
    have hcond : ('/' :: (joinChar '/' (c₀ :: t) ++ ['/'])).head? = some '/' := rfl
    rw [harr2, goClean, if_neg (by simp), if_pos hcond]
    have hsp1 : splitChar '/' ('/' :: (joinChar '/' (c₀ :: t) ++ ['/']))
        = [] :: splitChar '/' (joinChar '/' (c₀ :: t) ++ ['/']) := by
      rw [splitChar, if_pos rfl]
    rw [hsp1, splitChar_append_sep,
      splitChar_joinChar (by simp) (fun y hy => (hpre' y hy).2.2.2)]
    rw [cleanRun_no_dots true [] _ (by
      intro y hy
      rcases List.mem_cons.mp hy with rfl | hy'
      · simp
      · rcases List.mem_append.mp hy' with h | h
        · exact (hpre' y h).2.2.1
        · rw [List.mem_singleton] at h
          rw [h]
          simp)]
    have hfl : (([] : GoStr) :: ((c₀ :: t) ++ [[]])).filter
        (fun y => ¬ (y = [] ∨ y = ['.'])) = c₀ :: t := by
      rw [List.filter_cons_of_neg (by simp), List.filter_append,
        List.filter_eq_self.mpr (fun a ha => by
          have hga := hpre' a ha
          simp [hga.1, hga.2.1])]
      simp
    rw [List.reverse_nil, List.nil_append, hfl]

theorem goDir_abs_shape (p : GoStr) (habs : p.head? = some '/') :
    goDir p = str "/" ∨ ∃ out, out ≠ [] ∧ (∀ x ∈ out, GoodComp x) ∧
      goDir p = '/' :: joinChar '/' out := by
  obtain ⟨xs, rfl⟩ : ∃ xs, p = '/' :: xs := by
    cases p with
    | nil => cases habs
    | cons a as =>
      simp only [List.head?, Option.some.injEq] at habs
      exact ⟨as, by rw [habs]⟩
  have hq : ∃ r, upToLastSlash ('/' :: xs) = '/' :: r := by
    rcases h : upToLastSlash xs with _ | ⟨b, bs⟩
    · exact ⟨[], by rw [upToLastSlash, h]; simp⟩
    · exact ⟨b :: bs, by rw [upToLastSlash, h]⟩
  obtain ⟨r, hr⟩ := hq
  have hcond : ('/' :: r).head? = some '/' := rfl
  rw [goDir, hr, goClean, if_neg (by simp), if_pos hcond]
  have hgood : ∀ x ∈ cleanRun true [] (splitChar '/' ('/' :: r)), GoodComp x := by
    refine mem_cleanRun_rooted ?_ (by simp) ?_
    · intro hg
      exact hg.2.2.1 rfl
    · intro y hy
      have hns : '/' ∉ y := mem_splitChar_not_mem y hy
      by_cases h1 : y = []
      · exact Or.inl h1
      · by_cases h2 : y = ['.']
        · exact Or.inr (Or.inl h2)
        · by_cases h3 : y = ['.', '.']
          · exact Or.inr (Or.inr (Or.inl h3))
          · exact Or.inr (Or.inr (Or.inr ⟨h1, h2, h3, hns⟩))
  rcases hout0 : cleanRun true [] (splitChar '/' ('/' :: r)) with _ | ⟨o, os⟩
  · left
    rfl
  · right
    exact ⟨o :: os, by simp, hout0 ▸ hgood, rfl⟩

/-- Hierarchy pre-closure: every entry's parent path is the root or is
itself a key of the store (the root entry is only guaranteed at the very
end of `LoadFromText`). -/
def preClosure (l : List (GoStr × P3.VirtualFile)) : Prop :=
  ∀ kv ∈ l, kv.1 = str "/" ∨ goDir kv.1 = str "/" ∨
    (P3.findFile l (goDir kv.1)).isSome = true

/-- Synthesized-directory shape: every non-root directory entry carries
its final path segment as displayName and size 0. -/
def dirProps (l : List (GoStr × P3.VirtualFile)) : Prop :=
  ∀ kv ∈ l, kv.2.isDir = true → kv.1 = str "/" ∨
    (kv.2.displayName = goBase kv.1 ∧ kv.2.size = 0)

theorem P3.mem_putFile {m : List (GoStr × P3.VirtualFile)} {k : GoStr}
    {v : P3.VirtualFile} {kv' : GoStr × P3.VirtualFile}
    (h : kv' ∈ P3.putFile m k v) : kv' = (k, v) ∨ kv' ∈ m := by
  induction m with
  | nil =>
    rcases List.mem_singleton.mp h with rfl
    exact Or.inl rfl
  | cons kv rest ih =>
    by_cases hk : kv.1 = k
    · rw [P3.putFile, if_pos hk] at h
      rcases List.mem_cons.mp h with rfl | h'
      · exact Or.inl rfl
      · exact Or.inr (List.mem_cons_of_mem _ h')
    · rw [P3.putFile, if_neg hk] at h
      rcases List.mem_cons.mp h with rfl | h'
      · exact Or.inr (List.mem_cons_self _ _)
      · rcases ih h' with h'' | h''
        · exact Or.inl h''
        · exact Or.inr (List.mem_cons_of_mem _ h'')

theorem P3.findFile_putFile_isSome_mono {m : List (GoStr × P3.VirtualFile)}
    {k' : GoStr} (k : GoStr) (v : P3.VirtualFile)
    (h : (P3.findFile m k').isSome = true) :
    (P3.findFile (P3.putFile m k v) k').isSome = true := by
  rw [P3.findFile_putFile]
  by_cases hk : k = k' <;> simp [hk, h]

theorem preClosure_putFile {m : List (GoStr × P3.VirtualFile)} {k : GoStr}
    {v : P3.VirtualFile} (hI : preClosure m)
    (hk : goDir k = str "/" ∨ (P3.findFile m (goDir k)).isSome = true) :
    preClosure (P3.putFile m k v) := by
  intro kv' hkv'
  rcases P3.mem_putFile hkv' with rfl | hmem
  · rcases hk with hk | hk
    · exact Or.inr (Or.inl hk)
    · exact Or.inr (Or.inr (P3.findFile_putFile_isSome_mono k v hk))
  · rcases hI kv' hmem with h | h | h
    · exact Or.inl h
    · exact Or.inr (Or.inl h)
    · exact Or.inr (Or.inr (P3.findFile_putFile_isSome_mono k v h))

theorem dirProps_putFile {m : List (GoStr × P3.VirtualFile)} {k : GoStr}
    {v : P3.VirtualFile} (hD : dirProps m)
    (hv : v.isDir = true → k = str "/" ∨
      (v.displayName = goBase k ∧ v.size = 0)) :
    dirProps (P3.putFile m k v) := by
  intro kv' hkv' hdir
  rcases P3.mem_putFile hkv' with rfl | hmem
  · exact hv hdir
  · exact hD kv' hmem hdir

theorem chain_fold_inv (now : Nat) :
    ∀ cs : List GoStr, (∀ c ∈ cs, GoodComp c) →
    ∀ (pre : List GoStr) (files : List (GoStr × P3.VirtualFile)),
    (∀ c ∈ pre, GoodComp c) →
    (pre = [] ∨ (P3.findFile files ('/' :: joinChar '/' pre)).isSome = true) →
    preClosure files → dirProps files →
    preClosure (cs.foldl (P3.chainStep now) (files, joinChar '/' pre)).1 ∧
    dirProps (cs.foldl (P3.chainStep now) (files, joinChar '/' pre)).1 ∧
    (∀ k, (P3.findFile files k).isSome = true →
      (P3.findFile
        (cs.foldl (P3.chainStep now) (files, joinChar '/' pre)).1 k).isSome
          = true) ∧
    ((¬ pre = [] ∨ ¬ cs = []) →
      (P3.findFile (cs.foldl (P3.chainStep now) (files, joinChar '/' pre)).1
        ('/' :: joinChar '/' (pre ++ cs))).isSome = true) := by
  intro cs
  induction cs with
  | nil =>
    intro hcs pre files hpre hpre2 hI hD
    refine ⟨hI, hD, fun k h => h, ?_⟩
    intro hne
    rcases hne with hne | hne
    · rcases hpre2 with h | h
      · exact absurd h hne
      · simpa using h
    · exact absurd rfl hne
  | cons c cs' ih =>
    intro hcs pre files hpre hpre2 hI hD
    have hc : GoodComp c := hcs c (List.mem_cons_self _ _)
    have hcs' : ∀ x ∈ cs', GoodComp x :=
      fun x hx => hcs x (List.mem_cons_of_mem _ hx)
    have hpre1 : ∀ g ∈ pre ++ [c], GoodComp g := by
      intro g hg
      rcases List.mem_append.mp hg with h | h
      · exact hpre g h
      · rw [List.mem_singleton] at h
        rw [h]
        exact hc
    have hcur : goJoin2 (joinChar '/' pre) c = joinChar '/' (pre ++ [c]) :=
      goJoin2_joinChar hpre hc
    have happ : pre ++ c :: cs' = (pre ++ [c]) ++ cs' := by simp
    rw [List.foldl_cons]
    by_cases hex : (P3.findFile files
        ('/' :: joinChar '/' (pre ++ [c]))).isSome = true
    · have hstep : P3.chainStep now (files, joinChar '/' pre) c
          = (files, joinChar '/' (pre ++ [c])) := by
        simp only [P3.chainStep, hcur]
        rw [if_pos hex]
      rw [hstep]
      have ihres := ih hcs' (pre ++ [c]) files hpre1 (Or.inr hex) hI hD
      refine ⟨ihres.1, ihres.2.1, ihres.2.2.1, ?_⟩
      intro _
      rw [happ]
      exact ihres.2.2.2 (Or.inl (by simp))
    · have hstep : P3.chainStep now (files, joinChar '/' pre) c
          = (P3.putFile files ('/' :: joinChar '/' (pre ++ [c]))
               (P3.mkDirEntry now ('/' :: joinChar '/' (pre ++ [c]))),
             joinChar '/' (pre ++ [c])) := by
        simp only [P3.chainStep, hcur]
        rw [if_neg hex]
      rw [hstep]
      have hgd : goDir ('/' :: joinChar '/' (pre ++ [c]))
          = if pre = [] then str "/" else '/' :: joinChar '/' pre :=
        goDir_join hpre hc
      have hparent : goDir ('/' :: joinChar '/' (pre ++ [c])) = str "/" ∨
          (P3.findFile files
            (goDir ('/' :: joinChar '/' (pre ++ [c])))).isSome = true := by
        by_cases hpre0 : pre = []
        · left
          rw [hgd, if_pos hpre0]
        · right
          rw [hgd, if_neg hpre0]
          rcases hpre2 with h | h
          · exact absurd h hpre0
          · exact h
      have hI' : preClosure (P3.putFile files
          ('/' :: joinChar '/' (pre ++ [c]))
          (P3.mkDirEntry now ('/' :: joinChar '/' (pre ++ [c])))) :=
        preClosure_putFile hI hparent
      have hD' : dirProps (P3.putFile files
          ('/' :: joinChar '/' (pre ++ [c]))
          (P3.mkDirEntry now ('/' :: joinChar '/' (pre ++ [c])))) :=
        dirProps_putFile hD (fun _ => Or.inr ⟨rfl, rfl⟩)
      have hpre2' : (P3.findFile (P3.putFile files
          ('/' :: joinChar '/' (pre ++ [c]))
          (P3.mkDirEntry now ('/' :: joinChar '/' (pre ++ [c]))))
          ('/' :: joinChar '/' (pre ++ [c]))).isSome = true := by
        rw [P3.findFile_putFile]
        simp
      have ihres := ih hcs' (pre ++ [c]) _ hpre1 (Or.inr hpre2') hI' hD'
      refine ⟨ihres.1, ihres.2.1, ?_, ?_⟩
      · intro k h
        exact ihres.2.2.1 k (P3.findFile_putFile_isSome_mono _ _ h)
      · intro _
        rw [happ]
        exact ihres.2.2.2 (Or.inl (by simp))

theorem ensureParents_inv (now : Nat) (files : List (GoStr × P3.VirtualFile))
    (path : GoStr) (habs : path.head? = some '/')
    (hI : preClosure files) (hD : dirProps files) :
    preClosure (P3.ensureParents now files path) ∧
    dirProps (P3.ensureParents now files path) ∧
    (∀ k, (P3.findFile files k).isSome = true →
      (P3.findFile (P3.ensureParents now files path) k).isSome = true) ∧
    (goDir path = str "/" ∨
      (P3.findFile (P3.ensureParents now files path)
        (goDir path)).isSome = true) := by
  rcases goDir_abs_shape path habs with hdir | ⟨out, hone, hgood, hdir⟩
  · have hskip : P3.ensureParents now files path = files := by
      simp only [P3.ensureParents, hdir]
      rw [if_pos (by simp)]
    rw [hskip]
    exact ⟨hI, hD, fun k h => h, Or.inl hdir⟩
  · obtain ⟨o, os, rfl⟩ : ∃ o os, out = o :: os := by
      cases out with
      | nil => cases hone rfl
      | cons a b => exact ⟨a, b, rfl⟩
    have hne2 : joinChar '/' (o :: os) ≠ [] :=
      joinChar_ne_nil rfl (hgood o (List.mem_cons_self _ _)).1
    have hcond : ¬ (goDir path = str "." || goDir path = str "/") = true := by
      rw [hdir]
      simp only [Bool.or_eq_true, decide_eq_true_eq]
      push_neg
      constructor
      · intro he
        have hh : some '/' = some '.' := congrArg List.head? he
        exact absurd hh (by decide)
      · intro he
        have htl := congrArg List.tail he
        simp only [List.tail_cons] at htl
        exact hne2 htl
    have hstrip : strTrimPre (goDir path) (str "/") = joinChar '/' (o :: os) := by
      have hp : List.isPrefixOf (str "/") ('/' :: joinChar '/' (o :: os)) = true :=
        List.isPrefixOf_iff_prefix.mpr ⟨joinChar '/' (o :: os), rfl⟩
      rw [hdir, strTrimPre, if_pos hp]
      rfl
    have hsegs : splitChar '/' (strTrimPre (goDir path) (str "/")) = o :: os := by
      rw [hstrip]
      exact splitChar_joinChar hone (fun y hy => (hgood y hy).2.2.2)
    have hrun : P3.ensureParents now files path =
        ((o :: os).foldl (P3.chainStep now) (files, [])).1 := by
      simp only [P3.ensureParents]
      rw [if_neg hcond, hsegs]
    have hmain := chain_fold_inv now (o :: os) hgood [] files (by simp)
      (Or.inl rfl) hI hD
    refine ⟨?_, ?_, ?_, ?_⟩
    · rw [hrun]
      exact hmain.1
    · rw [hrun]
      exact hmain.2.1
    · intro k h
      rw [hrun]
      exact hmain.2.2.1 k h
    · right
      rw [hrun, hdir]
      exact hmain.2.2.2 (Or.inr (by simp))

/-- The declared path field of a bulk-load line is absolute: the line is
blank, a comment, or its first `#`-field trims to a string starting with
`/`. -/
def absLineB (line : GoStr) : Bool :=
  trimSpace line = [] || (trimSpace line).head? = some '#' ||
    (match splitChar '#' (trimSpace line) with
     | p :: _ => (trimSpace p).head? = some '/'
     | [] => true)

theorem processLine_inv (fs : P3.VirtualFileSystem) (now : Nat) (line : GoStr)
    (fs' : P3.VirtualFileSystem) (habs : absLineB line = true)
    (hI : preClosure fs.files) (hD : dirProps fs.files)
    (h : P3.processLine fs now line = .ok fs') :
    preClosure fs'.files ∧ dirProps fs'.files := by
  by_cases hskip : trimSpace line = [] ∨ (trimSpace line).head? = some '#'
  · have hproc : P3.processLine fs now line = .ok fs := by
      rw [P3.processLine, if_pos (by rcases hskip with hs | hs <;> simp [hs])]
    rw [hproc] at h
    cases h
    exact ⟨hI, hD⟩
  · push_neg at hskip
    obtain ⟨hne, hhash⟩ := hskip
    rcases hsp : splitChar '#' (trimSpace line) with _ | ⟨p0, _ | ⟨p1, rest⟩⟩
    · exact absurd hsp (splitChar_ne_nil _ _)
    · have hproc : P3.processLine fs now line
          = .error (.lineFormat (trimSpace line)) := by
        rw [P3.processLine, if_neg (by simp [hne, hhash]), hsp]
      rw [hproc] at h
      cases h
    · have habs' : (trimSpace p0).head? = some '/' := by
        simp only [absLineB, hsp] at habs
        simp [hne, hhash] at habs
        exact habs
      cases hparse : parseInt64 (trimSpace p1) with
      | none =>
        have hproc : P3.processLine fs now line
            = .error (.sizeFormat (trimSpace line)) := by
          rw [P3.processLine, if_neg (by simp [hne, hhash]), hsp]
          simp [hparse]
        rw [hproc] at h
        cases h
      | some n =>
        unfold P3.processLine at h
        rw [if_neg (by simp [hne, hhash])] at h
        simp only [hsp, hparse] at h
        injection h with h2
        have hep := ensureParents_inv now fs.files (trimSpace p0) habs' hI hD
        constructor
        · rw [← h2]
          exact preClosure_putFile hep.1 hep.2.2.2
        · rw [← h2]
          refine dirProps_putFile hep.2.1 ?_
          intro hdirf
          simp [P3.mkLeafEntry] at hdirf

theorem load_lines_inv (now : Nat) :
    ∀ (lines : List GoStr) (fs fs₁ : P3.VirtualFileSystem),
    (∀ l ∈ lines, absLineB l = true) →
    preClosure fs.files → dirProps fs.files →
    List.foldlM (fun acc l => P3.processLine acc now l) fs lines = .ok fs₁ →
    preClosure fs₁.files ∧ dirProps fs₁.files := by
  intro lines
  induction lines with
  | nil =>
    intro fs fs₁ habs hI hD h
    have h' : (Except.ok fs : Except GoError P3.VirtualFileSystem)
        = Except.ok fs₁ := h
    injection h' with h2
    rw [← h2]
    exact ⟨hI, hD⟩
  | cons l ls ih =>
    intro fs fs₁ habs hI hD h
    have h' : (P3.processLine fs now l >>= fun b =>
        List.foldlM (fun acc x => P3.processLine acc now x) b ls)
        = .ok fs₁ := h
    cases hp : P3.processLine fs now l with
    | error e =>
      rw [hp] at h'
      exact Except.noConfusion
        (show (Except.error e : Except GoError P3.VirtualFileSystem)
          = Except.ok fs₁ from h')
    | ok fsm =>
      rw [hp] at h'
      have hmid := processLine_inv fs now l fsm
        (habs l (List.mem_cons_self _ _)) hI hD hp
      exact ih fsm fs₁ (fun x hx => habs x (List.mem_cons_of_mem _ hx))
        hmid.1 hmid.2 h'

/-- C1 (amended: every declared path is absolute, i.e. each non-blank,
non-comment line's path field trims to a `/`-rooted string): after a
successful `LoadFromText` on a fresh store, hierarchy closure holds —
every stored entry is the root `/` or the entry at its parent directory
(`path.Dir`) is also present — and every non-root directory entry carries
its final path segment as `displayName` with size 0. -/
theorem C1_load_hierarchy_closure (text : GoStr) (now : Nat)
    (fs : P3.VirtualFileSystem)
    (habs : ∀ l ∈ splitChar '\n' text, absLineB l = true)
    (h : P3.LoadFromText P3.NewVirtualFileSystem now text = .ok fs) :
    (∀ kv ∈ fs.files, kv.1 = str "/" ∨
      (P3.findFile fs.files (goDir kv.1)).isSome = true) ∧
    (∀ kv ∈ fs.files, kv.2.isDir = true → kv.1 = str "/" ∨
      (kv.2.displayName = goBase kv.1 ∧ kv.2.size = 0)) := by
  rw [P3.LoadFromText] at h
  cases hf : List.foldlM (fun acc l => P3.processLine acc now l)
      P3.NewVirtualFileSystem (splitChar '\n' text) with
  | error e =>
    rw [hf] at h
    cases h
  | ok fs₁ =>
    rw [hf] at h
    have hinv := load_lines_inv now (splitChar '\n' text)
      P3.NewVirtualFileSystem fs₁ habs
      (by intro kv hkv; simp [P3.NewVirtualFileSystem] at hkv)
      (by intro kv hkv; simp [P3.NewVirtualFileSystem] at hkv) hf
    injection h with h2
    by_cases hroot : (P3.findFile fs₁.files (str "/")).isSome = true
    · rw [if_pos hroot] at h2
      rw [← h2]
      refine ⟨?_, hinv.2⟩
      intro kv hkv
      rcases hinv.1 kv hkv with h0 | h0 | h0
      · exact Or.inl h0
      · right
        rw [h0]
        exact hroot
      · exact Or.inr h0
    · rw [if_neg hroot] at h2
      rw [← h2]
      constructor
      · intro kv hkv
        rcases P3.mem_putFile hkv with heq | hmem
        · left
          rw [heq]
        · rcases hinv.1 kv hmem with h0 | h0 | h0
          · exact Or.inl h0
          · right
            rw [h0, P3.findFile_putFile]
            simp
          · exact Or.inr (P3.findFile_putFile_isSome_mono _ _ h0)
      · intro kv hkv hdir
        rcases P3.mem_putFile hkv with heq | hmem
        · left
          rw [heq]
        · exact hinv.2 kv hmem hdir

/-- The store produced by loading the single relative-path line `a#1`. -/
def c1badfs : P3.VirtualFileSystem :=
  match P3.LoadFromText P3.NewVirtualFileSystem 0 (str "a#1") with
  | .ok fs => fs
  | .error _ => P3.NewVirtualFileSystem

/-- C1 counterexample to the unamended claim: loading the single line
`a#1` (a relative declared path) succeeds and stores an entry at `a`,
which is not the root, yet no entry exists at its parent `Dir("a") = "."`:
hierarchy closure fails after a successful bulk load. -/
theorem C1_counterexample :
    P3.LoadFromText P3.NewVirtualFileSystem 0 (str "a#1") = .ok c1badfs ∧
    (P3.findFile c1badfs.files (str "a")).isSome = true ∧
    str "a" ≠ str "/" ∧
    (P3.findFile c1badfs.files (goDir (str "a"))).isSome = false :=
  ⟨rfl, by decide, by decide, by decide⟩

/-- The store produced by loading the single absolute-path line
`/a/b/x.mkv#7`. -/
def c1fs : P3.VirtualFileSystem :=
  match P3.LoadFromText P3.NewVirtualFileSystem 5 (str "/a/b/x.mkv#7") with
  | .ok fs => fs
  | .error _ => P3.NewVirtualFileSystem

theorem C1_witness :
    (∀ l ∈ splitChar '\n' (str "/a/b/x.mkv#7"), absLineB l = true) ∧
    ((∀ kv ∈ c1fs.files, kv.1 = str "/" ∨
       (P3.findFile c1fs.files (goDir kv.1)).isSome = true) ∧
     (∀ kv ∈ c1fs.files, kv.2.isDir = true → kv.1 = str "/" ∨
       (kv.2.displayName = goBase kv.1 ∧ kv.2.size = 0))) :=
  ⟨by decide,
    C1_load_hierarchy_closure (str "/a/b/x.mkv#7") 5 c1fs (by decide) rfl⟩
